import Mathlib

/-!
Verification of the CrunchyCleaner cache-cleanup tool (Go) against its
natural-language specification.

The development shallowly embeds the decision logic of the program:

* the Safety Validator `isSafePath` (both the current version, which adds a
  path-depth heuristic, and the earlier denylist-only version, and both the
  Unix and the Windows branch of `runtime.GOOS`), together with faithful
  models of the string functions it relies on: `filepath.Clean`,
  `strings.ToLower` (ASCII range; every path the program compares is ASCII),
  `strings.Trim` and `strings.Split`;
* the Cleanup Executor `runCleanup`, as an explicit state-passing function
  over a flat filesystem model (a list of path entries), with oracles for
  per-path deletion failures (`os.Remove`/`os.RemoveAll` errors) and
  directory read failures (`os.ReadDir` errors), and glob resolution
  (`filepath.Glob ∘ expandHome`) abstracted as a resolution function, as the
  spec directs ("resolution … recomputed from the pattern"; glob match order
  "must not be relied upon for correctness");
* the Selection State Machine transitions of `handleMenu`.

Machine integers: the Go code uses `int` for cursor/count (never near
overflow by construction: bounded by the number of catalog entries) and
`float64` only for the display-only disk-space delta; these are modelled as
`Nat`/`Int`.
-/

namespace CrunchyCleaner

/-! ## ASCII lowercasing (Go `strings.ToLower` on ASCII data) -/

/-- Go `unicode.ToLower` restricted to the ASCII range: uppercase letters
are shifted by 32, everything else is fixed.  All strings the program
compares (cleaned paths, the denylists, `USERPROFILE`) are ASCII. -/
def lowerChar (c : Char) : Char :=
  if 65 ≤ c.toNat ∧ c.toNat ≤ 90 then Char.ofNat (c.toNat + 32) else c

def lowerL (l : List Char) : List Char := l.map lowerChar

/-- Go `strings.ToLower` (ASCII model). -/
def lowerS (s : String) : String := ⟨lowerL s.data⟩

/-! ## Splitting, joining and trimming on separator characters -/

/-- Split a character list at every separator; mirrors Go `strings.Split`
for a one-character separator (and the element scan of `filepath.Clean`,
which treats each separator as a boundary).  Always returns at least one
(possibly empty) group. -/
def splitSep (isS : Char → Bool) : List Char → List (List Char)
  | [] => [[]]
  | c :: rest =>
    if isS c then [] :: splitSep isS rest
    else
      match splitSep isS rest with
      | [] => [[c]]
      | e :: es => (c :: e) :: es

/-- Join groups with a separator character (inverse of `splitSep` on
well-formed input). -/
def joinSep (sep : Char) : List (List Char) → List Char
  | [] => []
  | [e] => e
  | e :: es => e ++ sep :: joinSep sep es

/-- Drop leading separator characters (left half of Go `strings.Trim` with
a one-character cutset). -/
def trimLeft (isS : Char → Bool) (l : List Char) : List Char :=
  l.dropWhile isS

/-- Drop trailing separator characters. -/
def trimRight (isS : Char → Bool) (l : List Char) : List Char :=
  (l.reverse.dropWhile isS).reverse

/-- Go `strings.Trim p cutset` for a one-character cutset. -/
def trimBoth (isS : Char → Bool) (l : List Char) : List Char :=
  trimRight isS (trimLeft isS l)

/-! ## Go `filepath.Clean` -/

/-- One step of the lexical cleaning loop of Go `path.Clean`: empty and
`.` elements vanish, `..` pops the previous element (or is kept at the
front of a relative path, or dropped at the root of a rooted path), and
every other element is pushed.  The accumulator holds the output elements
in reverse order. -/
def cleanPush (rooted : Bool) (stack : List (List Char)) (e : List Char) :
    List (List Char) :=
  if e = [] ∨ e = ['.'] then stack
  else if e = ['.', '.'] then
    match stack with
    | [] => if rooted then [] else [['.', '.']]
    | top :: rest =>
      if top = ['.', '.'] then e :: top :: rest else rest
  else e :: stack

/-- The cleaned element list of a path body. -/
def cleanElems (rooted : Bool) (elems : List (List Char)) : List (List Char) :=
  (elems.foldl (cleanPush rooted) []).reverse

def isUnixSep (c : Char) : Bool := c = '/'

/-- Go `filepath.Clean` on Unix (`path.Clean`): resolve `.` and `..`,
collapse separators, strip trailing separators; `""` becomes `"."`. -/
def cleanUnixL (l : List Char) : List Char :=
  if l = [] then ['.']
  else
    let rooted := isUnixSep (l.headD ' ')
    let elems := cleanElems rooted (splitSep isUnixSep l)
    if rooted then
      if elems = [] then ['/'] else '/' :: joinSep '/' elems
    else
      if elems = [] then ['.'] else joinSep '/' elems

def cleanUnix (s : String) : String := ⟨cleanUnixL s.data⟩

/-- On Windows both `\` and `/` separate path elements. -/
def isWinSep (c : Char) : Bool := c = '\\' || c = '/'

def isDriveLetter (c : Char) : Bool :=
  (65 ≤ c.toNat ∧ c.toNat ≤ 90) || (97 ≤ c.toNat ∧ c.toNat ≤ 122)

/-- Go `filepath.volumeNameLen` for drive-letter volumes (`"c:"`).  UNC
volume prefixes (`\\server\share`) are not modelled; no catalog pattern,
denylist entry or fixture of the spec is a UNC path. -/
def volumeLen (l : List Char) : Nat :=
  match l with
  | a :: b :: _ => if b = ':' ∧ isDriveLetter a then 2 else 0
  | _ => 0

/-- Go `filepath.FromSlash` applied character-wise. -/
def fromSlashChar (c : Char) : Char := if c = '/' then '\\' else c

/-- Go `filepath.Clean` on Windows: the volume name is kept verbatim
(modulo `FromSlash`), the remainder is cleaned with `\` as the output
separator; a path that is only a volume name gets `"."` appended. -/
def cleanWindowsL (l : List Char) : List Char :=
  let vol := (l.take (volumeLen l)).map fromSlashChar
  let rest := l.drop (volumeLen l)
  if rest = [] then l.map fromSlashChar ++ ['.']
  else
    let rooted := isWinSep (rest.headD ' ')
    let elems := cleanElems rooted (splitSep isWinSep rest)
    vol ++
      (if rooted then
        (if elems = [] then ['\\'] else '\\' :: joinSep '\\' elems)
      else
        (if elems = [] then ['.'] else joinSep '\\' elems))

def cleanWindows (s : String) : String := ⟨cleanWindowsL s.data⟩

/-! ## The depth count of `isSafePath` and the spec's depth-below-root -/

/-- The component count computed by `isSafePath`:
`len(strings.Split(strings.Trim(p, sep), sep))` with `sep` the
OS path separator (`/` on Unix, `\` on Windows). -/
def numParts (sep : Char) (l : List Char) : Nat :=
  (splitSep (fun c => c = sep) (trimBoth (fun c => c = sep) l)).length

/-- Number of path components strictly below the filesystem root, in the
sense of the spec's depth heuristic ("component depth below the filesystem
root"): leading and trailing separators bound no components and, on
Windows, the drive volume is the root, not a component. -/
def compCount (sep : Char) (l : List Char) : Nat :=
  let t := trimBoth (fun c => c = sep) l
  if t = [] then 0 else (splitSep (fun c => c = sep) t).length

def depthBelowRootUnix (s : String) : Nat := compCount '/' s.data

def depthBelowRootWin (s : String) : Nat :=
  compCount '\\' (s.data.drop (volumeLen s.data))

/-! ## The Safety Validator -/

/-- The Unix/Linux system blacklist of `isSafePath` (identical in both
versions of the source). -/
def unixBlacklist : List String :=
  ["/etc", "/bin", "/sbin", "/lib", "/usr", "/boot", "/root", "/home",
   "/proc", "/sys", "/dev"]

/-- The Windows system blacklist of `isSafePath`. -/
def winBlacklist : List String :=
  ["c:\\windows", "c:\\windows\\system32", "c:\\users", "c:\\program files",
   "c:\\program files (x86)", "c:\\programdata"]

/-- `isSafePath` (current version, `runtime.GOOS ≠ "windows"` branch):
clean the path, reject `/` and `\`, reject lower-cased exact matches of the
Unix blacklist, reject paths with fewer than 3 separator-delimited parts,
accept everything else. -/
def isSafePathUnix (p : String) : Bool :=
  let pc := cleanUnix p
  let pLower := lowerS pc
  if pc = "/" ∨ pc = "\\" then false
  else if pLower ∈ unixBlacklist then false
  else if numParts '/' pc.data < 3 then false
  else true

/-- `isSafePath` (current version, `runtime.GOOS = "windows"` branch).
`userProfile` is the value of `os.Getenv("USERPROFILE")`.  The length
check `len(p) <= 3` counts bytes in Go; all compared data is ASCII, where
bytes and characters agree. -/
def isSafePathWindows (userProfile : String) (p : String) : Bool :=
  let pc := cleanWindows p
  let pLower := lowerS pc
  if pc = "/" ∨ pc = "\\" then false
  else if pc.length ≤ 3 ∧ pc.data.contains ':' then false
  else if pLower ∈ winBlacklist then false
  else if pLower = lowerS userProfile then false
  else if numParts '\\' pc.data < 3 then false
  else true

/-- `isSafePath` of the earlier source version (denylist-only strategy,
Unix branch): identical to the current version but without the final
depth check. -/
def isSafePathUnixLegacy (p : String) : Bool :=
  let pc := cleanUnix p
  let pLower := lowerS pc
  if pc = "/" ∨ pc = "\\" then false
  else if pLower ∈ unixBlacklist then false
  else true

/-! ## Character-level lemmas -/

theorem toNat_ofNat_valid (n : Nat) (h : n < 55296) : (Char.ofNat n).toNat = n := by
  have hv : n.isValidChar := Or.inl h
  unfold Char.ofNat
  rw [dif_pos hv]
  simp [Char.ofNatAux, Char.toNat, UInt32.toNat]

theorem lowerChar_toNat (c : Char) :
    (lowerChar c).toNat =
      if 65 ≤ c.toNat ∧ c.toNat ≤ 90 then c.toNat + 32 else c.toNat := by
  unfold lowerChar
  split
  · next h => exact toNat_ofNat_valid _ (by omega)
  · rfl

theorem char_toNat_inj {c d : Char} (h : c.toNat = d.toNat) : c = d :=
  Char.ext (UInt32.ext h)

/-- Characters whose code is not that of a lowercase letter are hit by
`lowerChar` only from themselves. -/
theorem lowerChar_eq_special {c t : Char} (ht : ¬(97 ≤ t.toNat ∧ t.toNat ≤ 122))
    (h : lowerChar c = t) : c = t := by
  have htn := lowerChar_toNat c
  rw [h] at htn
  by_cases hc : 65 ≤ c.toNat ∧ c.toNat ≤ 90
  · rw [if_pos hc] at htn
    exact absurd ⟨by omega, by omega⟩ ht
  · rw [if_neg hc] at htn
    exact char_toNat_inj htn.symm

theorem lowerChar_slash {c : Char} (h : lowerChar c = '/') : c = '/' :=
  lowerChar_eq_special (by decide) h

theorem lowerChar_backslash {c : Char} (h : lowerChar c = '\\') : c = '\\' :=
  lowerChar_eq_special (by decide) h

theorem lowerChar_dot {c : Char} (h : lowerChar c = '.') : c = '.' :=
  lowerChar_eq_special (by decide) h

theorem lowerChar_colon {c : Char} (h : lowerChar c = ':') : c = ':' :=
  lowerChar_eq_special (by decide) h

theorem isWinSep_lowerChar (c : Char) : isWinSep (lowerChar c) = isWinSep c := by
  by_cases h1 : c = '\\'
  · subst h1; rfl
  · by_cases h2 : c = '/'
    · subst h2; rfl
    · have g1 : lowerChar c ≠ '\\' := fun h => h1 (lowerChar_backslash h)
      have g2 : lowerChar c ≠ '/' := fun h => h2 (lowerChar_slash h)
      unfold isWinSep
      rw [decide_eq_false g1, decide_eq_false g2, decide_eq_false h1,
        decide_eq_false h2]

theorem isUnixSep_lowerChar (c : Char) : isUnixSep (lowerChar c) = isUnixSep c := by
  by_cases h2 : c = '/'
  · subst h2; rfl
  · have g2 : lowerChar c ≠ '/' := fun h => h2 (lowerChar_slash h)
    unfold isUnixSep
    rw [decide_eq_false g2, decide_eq_false h2]

theorem isDriveLetter_lowerChar (c : Char) :
    isDriveLetter (lowerChar c) = isDriveLetter c := by
  have h := lowerChar_toNat c
  unfold isDriveLetter
  rw [Bool.eq_iff_iff]
  simp only [Bool.or_eq_true, decide_eq_true_eq]
  by_cases hc : 65 ≤ c.toNat ∧ c.toNat ≤ 90
  · rw [if_pos hc] at h
    rw [h]
    omega
  · rw [if_neg hc] at h
    rw [h]

theorem fromSlashChar_lowerChar (c : Char) :
    fromSlashChar (lowerChar c) = lowerChar (fromSlashChar c) := by
  by_cases hc : c = '/'
  · subst hc; rfl
  · have g : lowerChar c ≠ '/' := fun h => hc (lowerChar_slash h)
    unfold fromSlashChar
    rw [if_neg g, if_neg hc]

theorem lowerL_fixed_of {seps : List Char} (h : ∀ c ∈ seps, lowerChar c = c) :
    lowerL seps = seps := by
  induction seps with
  | nil => rfl
  | cons c rest ih =>
    unfold lowerL at *
    rw [List.map_cons, h c (by simp), ih (fun x hx => h x (by simp [hx]))]

theorem lowerL_sep_fixed {seps : List Char} (h : ∀ c ∈ seps, isWinSep c = true) :
    lowerL seps = seps := by
  apply lowerL_fixed_of
  intro c hc
  rcases (by simpa [isWinSep] using h c hc : c = '\\' ∨ c = '/') with rfl | rfl <;> rfl

theorem lowerL_slash_fixed {seps : List Char} (h : ∀ c ∈ seps, c = '/') :
    lowerL seps = seps := by
  apply lowerL_fixed_of
  intro c hc
  rw [h c hc]; rfl

/-! ## Lemmas about `splitSep`, `joinSep` and trimming -/

theorem splitSep_ne_nil (isS : Char → Bool) (l : List Char) :
    splitSep isS l ≠ [] := by
  cases l with
  | nil => simp [splitSep]
  | cons c rest =>
    unfold splitSep
    split
    · simp
    · split <;> simp

theorem splitSep_cons_sep {isS : Char → Bool} {c : Char} (h : isS c = true)
    (l : List Char) : splitSep isS (c :: l) = [] :: splitSep isS l := by
  conv_lhs => rw [splitSep]
  rw [if_pos h]

theorem splitSep_cons_not {isS : Char → Bool} {c : Char} (h : isS c = false)
    (l : List Char) :
    ∃ e es, splitSep isS l = e :: es ∧ splitSep isS (c :: l) = (c :: e) :: es := by
  obtain ⟨e, es, hsplit⟩ := List.exists_cons_of_ne_nil (splitSep_ne_nil isS l)
  refine ⟨e, es, hsplit, ?_⟩
  conv_lhs => unfold splitSep
  rw [if_neg (by simp [h]), hsplit]

theorem splitSep_sepRun {isS : Char → Bool} {m : List Char}
    (hm : ∀ c ∈ m, isS c = true) :
    splitSep isS m = [] :: m.map (fun _ => []) := by
  induction m with
  | nil => rfl
  | cons c rest ih =>
    rw [splitSep_cons_sep (hm c (by simp))]
    rw [ih (fun x hx => hm x (by simp [hx]))]
    rfl

theorem splitSep_append_sepRun {isS : Char → Bool} (l : List Char) {m : List Char}
    (hm : ∀ c ∈ m, isS c = true) :
    splitSep isS (l ++ m) = splitSep isS l ++ m.map (fun _ => []) := by
  induction l with
  | nil =>
    rw [List.nil_append, splitSep_sepRun hm]
    rfl
  | cons c rest ih =>
    by_cases hc : isS c
    · rw [List.cons_append, splitSep_cons_sep hc, splitSep_cons_sep hc, ih,
        List.cons_append]
    · have hc' : isS c = false := by simpa using hc
      obtain ⟨e2, es2, h1, h2⟩ := splitSep_cons_not hc' (rest ++ m)
      obtain ⟨e, es, h3, h4⟩ := splitSep_cons_not hc' rest
      rw [List.cons_append, h2, h4, List.cons_append]
      rw [ih, h3, List.cons_append] at h1
      injection h1 with he hes
      rw [he, hes]

theorem splitSep_no_sep {isS : Char → Bool} {l : List Char}
    (h : ∀ c ∈ l, isS c = false) : splitSep isS l = [l] := by
  induction l with
  | nil => rfl
  | cons c rest ih =>
    obtain ⟨e, es, h1, h2⟩ := splitSep_cons_not (h c (by simp)) rest
    rw [ih (fun x hx => h x (by simp [hx]))] at h1
    injection h1 with he hes
    rw [h2, ← he, ← hes]

theorem splitSep_map {isS : Char → Bool} {f : Char → Char}
    (hf : ∀ c, isS (f c) = isS c) (l : List Char) :
    splitSep isS (l.map f) = (splitSep isS l).map (List.map f) := by
  induction l with
  | nil => rfl
  | cons c rest ih =>
    by_cases hc : isS c
    · rw [List.map_cons, splitSep_cons_sep (by rw [hf]; exact hc),
        splitSep_cons_sep hc, ih]
      rfl
    · have hc' : isS c = false := by simpa using hc
      obtain ⟨e, es, h1, h2⟩ := splitSep_cons_not hc' rest
      obtain ⟨e2, es2, h3, h4⟩ :=
        @splitSep_cons_not isS (f c) (by rw [hf c]; exact hc')
          (rest.map f)
      rw [List.map_cons, h4, h2]
      rw [ih, h1, List.map_cons] at h3
      injection h3 with he hes
      rw [← he, ← hes]
      simp

theorem joinSep_map (sep : Char) (f : Char → Char) (es : List (List Char)) :
    (joinSep sep es).map f = joinSep (f sep) (es.map (List.map f)) := by
  induction es with
  | nil => rfl
  | cons e es ih =>
    cases es with
    | nil => rfl
    | cons e2 es2 =>
      simp only [joinSep, List.map_append, List.map_cons, ih]

/-! ## Lemmas about `cleanElems` -/

theorem cleanPush_empty (rooted : Bool) (st : List (List Char)) :
    cleanPush rooted st [] = st := by
  simp [cleanPush]

theorem cleanElems_cons_empty (rooted : Bool) (es : List (List Char)) :
    cleanElems rooted ([] :: es) = cleanElems rooted es := by
  unfold cleanElems
  rw [List.foldl_cons, cleanPush_empty]

theorem foldl_cleanPush_empties (rooted : Bool) :
    ∀ (m : List (List Char)), (∀ e ∈ m, e = []) →
      ∀ st, m.foldl (cleanPush rooted) st = st
  | [], _, _ => rfl
  | e :: m2, hm, st => by
    rw [List.foldl_cons, hm e (by simp), cleanPush_empty]
    exact foldl_cleanPush_empties rooted m2 (fun x hx => hm x (by simp [hx])) st

theorem cleanElems_append_empties (rooted : Bool) (es m : List (List Char))
    (hm : ∀ e ∈ m, e = []) : cleanElems rooted (es ++ m) = cleanElems rooted es := by
  unfold cleanElems
  rw [List.foldl_append, foldl_cleanPush_empties rooted m hm]

/-- A path element that survives cleaning untouched: nonempty and not a
dot element. -/
def goodElem (e : List Char) : Bool :=
  ¬(e = [] ∨ e = ['.'] ∨ e = ['.', '.'])

theorem cleanPush_good {e : List Char} (he : goodElem e = true)
    (rooted : Bool) (st : List (List Char)) :
    cleanPush rooted st e = e :: st := by
  have he' : ¬(e = [] ∨ e = ['.'] ∨ e = ['.', '.']) := by
    simpa [goodElem] using he
  push_neg at he'
  obtain ⟨h1, h2, h3⟩ := he'
  unfold cleanPush
  rw [if_neg (by tauto), if_neg h3]

theorem cleanElems_good {es : List (List Char)} (hes : ∀ e ∈ es, goodElem e = true)
    (rooted : Bool) : cleanElems rooted es = es := by
  unfold cleanElems
  have : ∀ st, es.foldl (cleanPush rooted) st = es.reverse ++ st := by
    induction es with
    | nil => intro st; rfl
    | cons e es2 ih =>
      intro st
      rw [List.foldl_cons, cleanPush_good (hes e (by simp)) rooted st,
        ih (fun x hx => hes x (by simp [hx])) (e :: st)]
      rw [List.reverse_cons, List.append_assoc, List.singleton_append]
  rw [this []]
  rw [List.append_nil, List.reverse_reverse]

theorem lowerL_eq_nil_iff {e : List Char} : lowerL e = [] ↔ e = [] := by
  cases e <;> simp [lowerL]

theorem lowerL_eq_dot_iff {e : List Char} : lowerL e = ['.'] ↔ e = ['.'] := by
  cases e with
  | nil => simp [lowerL]
  | cons c t =>
    simp only [lowerL, List.map_cons, List.cons.injEq, List.map_eq_nil_iff]
    constructor
    · rintro ⟨h1, h2⟩
      exact ⟨lowerChar_dot h1, h2⟩
    · rintro ⟨rfl, rfl⟩
      exact ⟨by decide, rfl⟩

theorem lowerL_eq_dotdot_iff {e : List Char} : lowerL e = ['.', '.'] ↔ e = ['.', '.'] := by
  cases e with
  | nil => simp [lowerL]
  | cons c t =>
    simp only [lowerL, List.map_cons, List.cons.injEq]
    constructor
    · rintro ⟨h1, h2⟩
      have h3 : t = ['.'] := lowerL_eq_dot_iff.mp h2
      exact ⟨lowerChar_dot h1, h3⟩
    · rintro ⟨rfl, rfl⟩
      exact ⟨by decide, by decide⟩

theorem cleanPush_lower (rooted : Bool) (st : List (List Char)) (e : List Char) :
    cleanPush rooted (st.map lowerL) (lowerL e) = (cleanPush rooted st e).map lowerL := by
  unfold cleanPush
  by_cases h1 : e = [] ∨ e = ['.']
  · rw [if_pos (by rcases h1 with rfl | rfl <;> simp [lowerL] <;> decide), if_pos h1]
  · have h1l : ¬(lowerL e = [] ∨ lowerL e = ['.']) := by
      rw [lowerL_eq_nil_iff, lowerL_eq_dot_iff]
      exact h1
    rw [if_neg h1l, if_neg h1]
    by_cases h2 : e = ['.', '.']
    · rw [if_pos (by rw [lowerL_eq_dotdot_iff]; exact h2), if_pos h2]
      have hdd : lowerL ['.', '.'] = ['.', '.'] := by decide
      cases st with
      | nil =>
        simp only [List.map_nil]
        cases rooted
        · simp [hdd]
        · rfl
      | cons top rest =>
        simp only [List.map_cons]
        by_cases h3 : top = ['.', '.']
        · rw [if_pos (by rw [lowerL_eq_dotdot_iff]; exact h3), if_pos h3]
          subst h2
          simp only [List.map_cons, hdd]
        · rw [if_neg (by rw [lowerL_eq_dotdot_iff]; exact h3), if_neg h3]
    · rw [if_neg (by rw [lowerL_eq_dotdot_iff]; exact h2), if_neg h2]
      rfl

theorem cleanElems_lower (rooted : Bool) (es : List (List Char)) :
    cleanElems rooted (es.map lowerL) = (cleanElems rooted es).map lowerL := by
  unfold cleanElems
  rw [List.map_reverse]
  congr 1
  have : ∀ st, (es.map lowerL).foldl (cleanPush rooted) (st.map lowerL) =
      (es.foldl (cleanPush rooted) st).map lowerL := by
    induction es with
    | nil => intro st; rfl
    | cons e es2 ih =>
      intro st
      rw [List.map_cons, List.foldl_cons, List.foldl_cons, cleanPush_lower]
      exact ih (cleanPush rooted st e)
  exact this []

/-! ## Lemmas about `cleanUnix` -/

theorem lowerL_ne_nil {l : List Char} (hl : l ≠ []) : lowerL l ≠ [] := by
  simpa [lowerL] using hl

theorem headD_lowerL {l : List Char} (hl : l ≠ []) (d : Char) :
    (lowerL l).headD d = lowerChar (l.headD d) := by
  obtain ⟨c, t, rfl⟩ := List.exists_cons_of_ne_nil hl
  rfl

theorem lowerL_cons (c : Char) (t : List Char) :
    lowerL (c :: t) = lowerChar c :: lowerL t := rfl

theorem lowerL_append (a b : List Char) :
    lowerL (a ++ b) = lowerL a ++ lowerL b := by
  unfold lowerL
  exact List.map_append ..

theorem lowerL_take (v : Nat) (l : List Char) :
    (lowerL l).take v = lowerL (l.take v) := by
  unfold lowerL
  exact (List.map_take ..).symm

theorem lowerL_drop (v : Nat) (l : List Char) :
    (lowerL l).drop v = lowerL (l.drop v) := by
  unfold lowerL
  exact (List.map_drop ..).symm

theorem splitSep_lowerL {isS : Char → Bool}
    (hf : ∀ c, isS (lowerChar c) = isS c) (l : List Char) :
    splitSep isS (lowerL l) = (splitSep isS l).map lowerL :=
  splitSep_map hf l

theorem lowerL_joinSep (sep : Char) (hsep : lowerChar sep = sep)
    (es : List (List Char)) :
    lowerL (joinSep sep es) = joinSep sep (es.map lowerL) := by
  unfold lowerL
  rw [joinSep_map, hsep]

theorem cleanUnixL_lower (l : List Char) :
    cleanUnixL (lowerL l) = lowerL (cleanUnixL l) := by
  by_cases hl : l = []
  · subst hl; decide
  · have hl2 : lowerL l ≠ [] := lowerL_ne_nil hl
    simp only [cleanUnixL, if_neg hl, if_neg hl2, headD_lowerL hl,
      isUnixSep_lowerChar, splitSep_lowerL isUnixSep_lowerChar, cleanElems_lower,
      List.map_eq_nil_iff]
    have hlc : lowerChar '/' = '/' := by decide
    by_cases hr : isUnixSep (l.headD ' ') = true
    · simp only [hr, if_true]
      by_cases he : cleanElems true (splitSep isUnixSep l) = []
      · rw [if_pos he, if_pos he]
        decide
      · rw [if_neg he, if_neg he, lowerL_cons, lowerL_joinSep '/' hlc, hlc]
    · simp only [hr, if_false, Bool.false_eq_true]
      by_cases he : cleanElems false (splitSep isUnixSep l) = []
      · rw [if_pos he, if_pos he]
        decide
      · rw [if_neg he, if_neg he, lowerL_joinSep '/' hlc]

theorem cleanUnixL_append_seps {l seps : List Char} (hl : l ≠ [])
    (hs : ∀ c ∈ seps, c = '/') : cleanUnixL (l ++ seps) = cleanUnixL l := by
  have hls : l ++ seps ≠ [] := by simp [hl]
  simp only [cleanUnixL, if_neg hl, if_neg hls]
  have e0 : (l ++ seps).headD ' ' = l.headD ' ' := by
    obtain ⟨c, t, rfl⟩ := List.exists_cons_of_ne_nil hl
    rfl
  have e1 : splitSep isUnixSep (l ++ seps) =
      splitSep isUnixSep l ++ seps.map (fun _ => []) :=
    splitSep_append_sepRun l (fun c hc => by rw [hs c hc]; rfl)
  rw [e0, e1, cleanElems_append_empties _ _ _ (by simp)]

theorem cleanUnixL_slashes (k : Nat) :
    cleanUnixL (List.replicate (k + 1) '/') = ['/'] := by
  have hne : List.replicate (k + 1) '/' ≠ [] := by simp
  simp only [cleanUnixL, if_neg hne]
  have h1 : (List.replicate (k + 1) '/').headD ' ' = '/' := by
    rw [List.replicate_succ]
    rfl
  have h2 : splitSep isUnixSep (List.replicate (k + 1) '/') =
      [] :: (List.replicate (k + 1) '/').map (fun _ => []) :=
    splitSep_sepRun (by intro c hc; rw [List.eq_of_mem_replicate hc]; rfl)
  have h3 : cleanElems (isUnixSep '/') ([] :: (List.replicate (k + 1) '/').map
      (fun _ => [])) = [] := by
    have := cleanElems_append_empties (isUnixSep '/') []
      ([] :: (List.replicate (k + 1) '/').map (fun _ => []))
      (by simp)
    simpa using this
  rw [h1, h2, h3]
  simp [isUnixSep]

/-! ## Lemmas about `cleanWindows` -/

theorem volumeLen_lower (l : List Char) : volumeLen (lowerL l) = volumeLen l := by
  match l with
  | [] => rfl
  | [a] => rfl
  | a :: b :: t =>
    simp only [lowerL, List.map_cons, volumeLen]
    have hb : (lowerChar b = ':') ↔ (b = ':') :=
      ⟨lowerChar_colon, by rintro rfl; decide⟩
    have ha : (isDriveLetter (lowerChar a) = true) ↔ (isDriveLetter a = true) := by
      rw [isDriveLetter_lowerChar]
    exact if_congr (and_congr hb ha) rfl rfl

theorem volumeLen_le_length (l : List Char) : volumeLen l ≤ l.length := by
  match l with
  | [] => exact Nat.le_refl 0
  | [a] => exact Nat.zero_le 1
  | a :: b :: t =>
    simp only [volumeLen, List.length_cons]
    split <;> omega

theorem volumeLen_eq_zero_or_two (l : List Char) :
    volumeLen l = 0 ∨ volumeLen l = 2 := by
  match l with
  | [] => exact Or.inl rfl
  | [a] => exact Or.inl rfl
  | a :: b :: t =>
    simp only [volumeLen]
    split
    · exact Or.inr rfl
    · exact Or.inl rfl

theorem volumeLen_append_seps {l seps : List Char} (hl : l ≠ [])
    (hs : ∀ c ∈ seps, isWinSep c = true) :
    volumeLen (l ++ seps) = volumeLen l := by
  match l with
  | [a] =>
    cases seps with
    | nil => rfl
    | cons s t =>
      have hsep : isWinSep s = true := hs s (by simp)
      have hne : s ≠ ':' := by
        rcases (by simpa [isWinSep] using hsep : s = '\\' ∨ s = '/') with rfl | rfl <;>
          decide
      simp only [List.cons_append, List.nil_append, volumeLen]
      rw [if_neg (by tauto)]
  | a :: b :: t =>
    simp only [List.cons_append, volumeLen]

theorem lowerL_fromSlash (m : List Char) :
    lowerL (m.map fromSlashChar) = (lowerL m).map fromSlashChar := by
  unfold lowerL
  rw [List.map_map, List.map_map]
  exact (List.map_congr_left (fun c _ => fromSlashChar_lowerChar c)).symm

theorem cleanWindowsL_lower (l : List Char) :
    cleanWindowsL (lowerL l) = lowerL (cleanWindowsL l) := by
  have hbs : lowerChar '\\' = '\\' := by decide
  simp only [cleanWindowsL, volumeLen_lower, lowerL_drop, lowerL_take,
    lowerL_eq_nil_iff]
  by_cases hrest : l.drop (volumeLen l) = []
  · rw [if_pos hrest, if_pos hrest, lowerL_append, lowerL_fromSlash]
    rfl
  · rw [if_neg hrest, if_neg hrest, headD_lowerL hrest, isWinSep_lowerChar,
      splitSep_lowerL isWinSep_lowerChar, cleanElems_lower, lowerL_append,
      lowerL_fromSlash]
    simp only [List.map_eq_nil_iff]
    by_cases hr : isWinSep ((l.drop (volumeLen l)).headD ' ') = true
    · simp only [hr, if_true]
      by_cases he : cleanElems true (splitSep isWinSep (l.drop (volumeLen l))) = []
      · rw [if_pos he, if_pos he]
        rfl
      · rw [if_neg he, if_neg he, lowerL_cons, lowerL_joinSep '\\' hbs, hbs]
    · simp only [hr, if_false, Bool.false_eq_true]
      by_cases he : cleanElems false (splitSep isWinSep (l.drop (volumeLen l))) = []
      · rw [if_pos he, if_pos he]
        rfl
      · rw [if_neg he, if_neg he, lowerL_joinSep '\\' hbs]

theorem cleanWindowsL_append_seps {l seps : List Char} (hl : l ≠ [])
    (hvol : volumeLen l = 2 → 3 ≤ l.length)
    (hs : ∀ c ∈ seps, isWinSep c = true) :
    cleanWindowsL (l ++ seps) = cleanWindowsL l := by
  simp only [cleanWindowsL, volumeLen_append_seps hl hs]
  have hvle : volumeLen l ≤ l.length := volumeLen_le_length l
  have htake : (l ++ seps).take (volumeLen l) = l.take (volumeLen l) :=
    List.take_append_of_le_length hvle
  have hdrop : (l ++ seps).drop (volumeLen l) = l.drop (volumeLen l) ++ seps :=
    List.drop_append_of_le_length hvle
  have hrest_ne : l.drop (volumeLen l) ≠ [] := by
    intro h
    have hlen : l.length ≤ volumeLen l := by
      rw [← List.drop_eq_nil_iff_le]
      exact h
    rcases volumeLen_eq_zero_or_two l with h0 | h2
    · rw [h0] at hlen
      exact hl (List.eq_nil_of_length_eq_zero (Nat.le_zero.mp hlen))
    · have := hvol h2
      omega
  rw [htake, hdrop, if_neg (by simp [hrest_ne]), if_neg hrest_ne]
  have e0 : (l.drop (volumeLen l) ++ seps).headD ' ' =
      (l.drop (volumeLen l)).headD ' ' := by
    obtain ⟨c, t, hct⟩ := List.exists_cons_of_ne_nil hrest_ne
    rw [hct]
    rfl
  have e1 : splitSep isWinSep (l.drop (volumeLen l) ++ seps) =
      splitSep isWinSep (l.drop (volumeLen l)) ++ seps.map (fun _ => []) :=
    splitSep_append_sepRun _ hs
  rw [e0, e1, cleanElems_append_empties _ _ _ (by simp)]

/-! ## Trimming and part-count lemmas for the depth checks -/

theorem trimRight_cons (isS : Char → Bool) (c : Char) (t : List Char) :
    trimRight isS (c :: t) =
      if trimRight isS t = [] then (if isS c then [] else [c])
      else c :: trimRight isS t := by
  unfold trimRight
  rw [show (c :: t).reverse = t.reverse ++ [c] from by simp]
  rw [List.dropWhile_append]
  by_cases h : t.reverse.dropWhile isS = []
  · rw [if_pos (by simp [h]), if_pos (by simp [h])]
    by_cases hc : isS c
    · rw [if_pos hc]
      simp [List.dropWhile_cons, hc]
    · rw [if_neg hc]
      simp [List.dropWhile_cons, hc]
  · rw [if_neg (by simp [h]), if_neg (by simp [h])]
    simp

theorem trimRight_cons_not {isS : Char → Bool} {c : Char} (hc : isS c = false)
    (t : List Char) : trimRight isS (c :: t) = c :: trimRight isS t := by
  rw [trimRight_cons]
  by_cases h : trimRight isS t = []
  · rw [if_pos h, if_neg (by simp [hc]), h]
  · rw [if_neg h]

theorem trimLeft_trimRight_comm (isS : Char → Bool) (l : List Char) :
    trimLeft isS (trimRight isS l) = trimRight isS (trimLeft isS l) := by
  induction l with
  | nil => rfl
  | cons c t ih =>
    by_cases hc : isS c
    · have hleft : trimLeft isS (c :: t) = trimLeft isS t := by
        unfold trimLeft
        simp [List.dropWhile_cons, hc]
      rw [hleft, ← ih, trimRight_cons]
      by_cases h : trimRight isS t = []
      · rw [if_pos h, if_pos hc, h]
      · rw [if_neg h]
        unfold trimLeft
        simp [List.dropWhile_cons, hc]
    · have hc' : isS c = false := by simpa using hc
      have hleft : trimLeft isS (c :: t) = c :: t := by
        unfold trimLeft
        simp [List.dropWhile_cons, hc']
      rw [hleft, trimRight_cons_not hc']
      unfold trimLeft
      simp [List.dropWhile_cons, hc']

theorem length_trimLeft_le (isS : Char → Bool) (l : List Char) :
    (trimLeft isS l).length ≤ l.length := by
  unfold trimLeft
  exact (List.dropWhile_suffix isS).length_le

theorem length_trimRight_le (isS : Char → Bool) (l : List Char) :
    (trimRight isS l).length ≤ l.length := by
  unfold trimRight
  calc (l.reverse.dropWhile isS).reverse.length
      = (l.reverse.dropWhile isS).length := List.length_reverse _
    _ ≤ l.reverse.length := length_trimLeft_le isS l.reverse
    _ = l.length := List.length_reverse _

theorem length_trimBoth_le (isS : Char → Bool) (l : List Char) :
    (trimBoth isS l).length ≤ l.length :=
  Nat.le_trans (length_trimRight_le isS (trimLeft isS l))
    (length_trimLeft_le isS l)

theorem splitSep_length_eq_countP (isS : Char → Bool) (l : List Char) :
    (splitSep isS l).length = l.countP isS + 1 := by
  induction l with
  | nil => rfl
  | cons c t ih =>
    by_cases hc : isS c
    · rw [splitSep_cons_sep hc, List.length_cons, ih, List.countP_cons]
      simp only [hc, if_true]
    · have hc' : isS c = false := by simpa using hc
      obtain ⟨e, es, h1, h2⟩ := splitSep_cons_not hc' t
      rw [h2, List.length_cons, List.countP_cons]
      rw [h1, List.length_cons] at ih
      simp only [hc', if_false, Bool.false_eq_true]
      omega

theorem splitSep_length_trimLeft_le (isS : Char → Bool) (l : List Char) :
    (splitSep isS (trimLeft isS l)).length ≤ (splitSep isS l).length := by
  rw [splitSep_length_eq_countP, splitSep_length_eq_countP]
  unfold trimLeft
  have : (l.dropWhile isS).countP isS ≤ l.countP isS := by
    induction l with
    | nil => exact Nat.le_refl 0
    | cons c t ih =>
      rw [List.dropWhile_cons]
      by_cases hc : isS c
      · rw [if_pos hc, List.countP_cons, if_pos hc]
        omega
      · rw [if_neg hc]
  omega

theorem trimLeft_head_not_sep {isS : Char → Bool} {l : List Char}
    (h : trimLeft isS l ≠ []) :
    isS ((trimLeft isS l).headD ' ') = false := by
  unfold trimLeft at *
  induction l with
  | nil => exact absurd rfl h
  | cons c t ih =>
    rw [List.dropWhile_cons] at h ⊢
    by_cases hc : isS c
    · rw [if_pos hc] at h ⊢
      exact ih h
    · rw [if_neg hc] at h ⊢
      simpa using hc

theorem trimRight_prefix (isS : Char → Bool) (l : List Char) :
    trimRight isS l <+: l := by
  unfold trimRight
  have hsuf : l.reverse.dropWhile isS <:+ l.reverse := List.dropWhile_suffix isS
  have := List.reverse_prefix.mpr (by simpa using hsuf)
  simpa using this

theorem trimBoth_head_not_sep {isS : Char → Bool} {l : List Char}
    (h : trimBoth isS l ≠ []) :
    isS ((trimBoth isS l).headD ' ') = false := by
  unfold trimBoth at *
  obtain ⟨x, xs, hx⟩ := List.exists_cons_of_ne_nil h
  have hpfx : trimRight isS (trimLeft isS l) <+: trimLeft isS l :=
    trimRight_prefix isS (trimLeft isS l)
  rw [hx] at hpfx ⊢
  obtain ⟨rest, hrest⟩ := hpfx
  have hne : trimLeft isS l ≠ [] := by
    rw [← hrest]
    simp
  have := trimLeft_head_not_sep hne
  rw [← hrest] at this
  simpa using this

theorem trimRight_last_not_sep {isS : Char → Bool} {l : List Char}
    (h : trimRight isS l ≠ []) :
    isS ((trimRight isS l).getLastD ' ') = false := by
  unfold trimRight at *
  have hne : l.reverse.dropWhile isS ≠ [] := by
    intro hc
    rw [hc] at h
    exact h rfl
  have hhead := @trimLeft_head_not_sep isS l.reverse hne
  unfold trimLeft at hhead
  obtain ⟨x, xs, hx⟩ := List.exists_cons_of_ne_nil hne
  rw [hx] at hhead ⊢
  simpa using hhead

theorem trimBoth_last_not_sep {isS : Char → Bool} {l : List Char}
    (h : trimBoth isS l ≠ []) :
    isS ((trimBoth isS l).getLastD ' ') = false := by
  unfold trimBoth at *
  exact trimRight_last_not_sep h

/-- A string whose trimmed form splits into at least 3 parts has length at
least 4: the trimmed form starts and ends with a non-separator and contains
at least two separators. -/
theorem four_le_length_of_three_parts {isS : Char → Bool} {l : List Char}
    (h : 3 ≤ (splitSep isS (trimBoth isS l)).length) : 4 ≤ l.length := by
  have hcount : 2 ≤ (trimBoth isS l).countP isS := by
    have := splitSep_length_eq_countP isS (trimBoth isS l)
    omega
  have hne : trimBoth isS l ≠ [] := by
    intro hc
    rw [hc] at hcount
    simp [List.countP_nil] at hcount
  have hhead := trimBoth_head_not_sep hne
  have hlast := trimBoth_last_not_sep hne
  have hlen : 4 ≤ (trimBoth isS l).length := by
    set t := trimBoth isS l with ht
    obtain ⟨x, xs, hx⟩ := List.exists_cons_of_ne_nil hne
    rcases List.eq_nil_or_concat xs with rfl | ⟨mid, y, hy⟩
    · rw [hx] at hcount hhead
      simp [List.countP_cons] at hcount
      simp at hhead
      rw [hhead] at hcount
      simp at hcount
    · rw [List.concat_eq_append] at hy
      rw [hy] at hx
      rw [hx] at hcount hhead hlast
      have hxlast : (x :: (mid ++ [y])).getLastD ' ' = y := by
        rw [show x :: (mid ++ [y]) = (x :: mid) ++ [y] from by simp,
          List.getLastD_eq_getLast?, List.getLast?_concat]
        rfl
      rw [hxlast] at hlast
      have hxhead : (x :: (mid ++ [y])).headD ' ' = x := rfl
      rw [hxhead] at hhead
      have hcnt2 : (x :: (mid ++ [y])).countP isS = mid.countP isS := by
        rw [List.countP_cons]
        simp [hhead, hlast, List.countP_append]
      rw [hcnt2] at hcount
      have hmle : mid.countP isS ≤ mid.length := List.countP_le_length _
      rw [hx]
      simp
      omega
  have := length_trimBoth_le isS l
  omega

theorem compCount_le_numParts (sep : Char) (l : List Char) :
    compCount sep l ≤ numParts sep l := by
  simp only [compCount, numParts]
  split
  · exact Nat.zero_le _
  · exact Nat.le_refl _

theorem trimLeft_cons_not {isS : Char → Bool} {c : Char} (hc : isS c = false)
    (l : List Char) : trimLeft isS (c :: l) = c :: l := by
  unfold trimLeft
  simp [List.dropWhile_cons, hc]

theorem splitSep_length_cons_not {isS : Char → Bool} {c : Char}
    (hc : isS c = false) (l : List Char) :
    (splitSep isS (c :: l)).length = (splitSep isS l).length := by
  obtain ⟨e, es, h1, h2⟩ := splitSep_cons_not hc l
  rw [h1, h2]
  rfl

theorem volumeLen_two_shape {l : List Char} (h : volumeLen l = 2) :
    ∃ a b t, l = a :: b :: t ∧ b = ':' ∧ isDriveLetter a = true := by
  match l with
  | [] => exact absurd h (by decide)
  | [a] => exact absurd h (by simp [volumeLen])
  | a :: b :: t =>
    refine ⟨a, b, t, rfl, ?_⟩
    simp only [volumeLen] at h
    by_cases hcond : b = ':' ∧ isDriveLetter a = true
    · exact hcond
    · rw [if_neg (by tauto)] at h
      exact absurd h (by decide)

theorem compCount_drop_le_numParts (l : List Char) :
    compCount '\\' (l.drop (volumeLen l)) ≤ numParts '\\' l := by
  rcases volumeLen_eq_zero_or_two l with h0 | h2
  · rw [h0, List.drop_zero]
    exact compCount_le_numParts '\\' l
  · obtain ⟨a, b, t, rfl, hb, ha⟩ := volumeLen_two_shape h2
    subst hb
    have ha2 : (fun c => decide (c = '\\')) a = false := by
      apply decide_eq_false
      intro hcontra
      rw [hcontra] at ha
      exact absurd ha (by decide)
    have hb2 : (fun c => decide (c = '\\')) ':' = false := by decide
    rw [h2, List.drop_succ_cons, List.drop_succ_cons, List.drop_zero]
    unfold numParts trimBoth
    rw [trimLeft_cons_not ha2, trimRight_cons_not ha2, trimRight_cons_not hb2,
      splitSep_length_cons_not ha2, splitSep_length_cons_not hb2]
    have hcomm := trimLeft_trimRight_comm (fun c => decide (c = '\\')) t
    simp only [compCount, trimBoth]
    split
    · exact Nat.zero_le _
    · rw [← hcomm]
      exact splitSep_length_trimLeft_le _ (trimRight (fun c => decide (c = '\\')) t)

/-! ## Branch lemmas for the Safety Validator -/

theorem isSafePathUnix_false_of_blacklist {p : String}
    (h : lowerS (cleanUnix p) ∈ unixBlacklist) : isSafePathUnix p = false := by
  simp only [isSafePathUnix]
  split_ifs <;> first | rfl | exact absurd h (by assumption)

theorem isSafePathUnix_false_of_depth {p : String}
    (h : numParts '/' (cleanUnix p).data < 3) : isSafePathUnix p = false := by
  simp only [isSafePathUnix]
  split_ifs <;> first | rfl | exact absurd h (by assumption)

theorem isSafePathUnix_false_of_root {p : String}
    (h : cleanUnix p = "/" ∨ cleanUnix p = "\\") : isSafePathUnix p = false := by
  simp only [isSafePathUnix]
  split_ifs <;> first | rfl | exact absurd h (by assumption)

theorem isSafePathUnixLegacy_false_of_blacklist {p : String}
    (h : lowerS (cleanUnix p) ∈ unixBlacklist) : isSafePathUnixLegacy p = false := by
  simp only [isSafePathUnixLegacy]
  split_ifs <;> first | rfl | exact absurd h (by assumption)

theorem isSafePathUnixLegacy_false_of_root {p : String}
    (h : cleanUnix p = "/" ∨ cleanUnix p = "\\") : isSafePathUnixLegacy p = false := by
  simp only [isSafePathUnixLegacy]
  split_ifs <;> first | rfl | exact absurd h (by assumption)

theorem isSafePathWindows_false_of_short {up p : String}
    (h : (cleanWindows p).length ≤ 3 ∧ (cleanWindows p).data.contains ':') :
    isSafePathWindows up p = false := by
  simp only [isSafePathWindows]
  split_ifs <;> first | rfl | exact absurd h (by assumption)

theorem isSafePathWindows_false_of_blacklist {up p : String}
    (h : lowerS (cleanWindows p) ∈ winBlacklist) :
    isSafePathWindows up p = false := by
  simp only [isSafePathWindows]
  split_ifs <;> first | rfl | exact absurd h (by assumption)

theorem isSafePathWindows_false_of_profile {up p : String}
    (h : lowerS (cleanWindows p) = lowerS up) :
    isSafePathWindows up p = false := by
  simp only [isSafePathWindows]
  split_ifs <;> first | rfl | exact absurd h (by assumption)

theorem isSafePathWindows_false_of_root {up p : String}
    (h : cleanWindows p = "/" ∨ cleanWindows p = "\\") :
    isSafePathWindows up p = false := by
  simp only [isSafePathWindows]
  split_ifs <;> first | rfl | exact absurd h (by assumption)

theorem isSafePathUnix_true_of {p : String}
    (hd : 3 ≤ depthBelowRootUnix (cleanUnix p))
    (hb : lowerS (cleanUnix p) ∉ unixBlacklist) : isSafePathUnix p = true := by
  have hroot : ¬(cleanUnix p = "/" ∨ cleanUnix p = "\\") := by
    rintro (h1 | h1) <;> rw [h1] at hd <;> exact absurd hd (by decide)
  have hdepth : ¬(numParts '/' (cleanUnix p).data < 3) := by
    have h4 := compCount_le_numParts '/' (cleanUnix p).data
    simp only [depthBelowRootUnix, compCount] at hd h4
    omega
  simp only [isSafePathUnix]
  rw [if_neg hroot, if_neg hb, if_neg hdepth]

theorem isSafePathWindows_true_of {up p : String}
    (hd : 3 ≤ depthBelowRootWin (cleanWindows p))
    (hb : lowerS (cleanWindows p) ∉ winBlacklist)
    (hup : lowerS (cleanWindows p) ≠ lowerS up) :
    isSafePathWindows up p = true := by
  have hd' : 3 ≤ compCount '\\'
      ((cleanWindows p).data.drop (volumeLen (cleanWindows p).data)) := hd
  have hlen : 4 ≤ (cleanWindows p).data.length := by
    have h3parts : 3 ≤ (splitSep (fun c => decide (c = '\\'))
        (trimBoth (fun c => decide (c = '\\'))
          ((cleanWindows p).data.drop (volumeLen (cleanWindows p).data)))).length := by
      simp only [compCount] at hd'
      by_cases ht : trimBoth (fun c => decide (c = '\\'))
          ((cleanWindows p).data.drop (volumeLen (cleanWindows p).data)) = []
      · rw [if_pos ht] at hd'
        omega
      · rw [if_neg ht] at hd'
        exact hd'
    have h4 := four_le_length_of_three_parts h3parts
    have h5 : ((cleanWindows p).data.drop (volumeLen (cleanWindows p).data)).length ≤
        (cleanWindows p).data.length := by
      rw [List.length_drop]
      omega
    omega
  have hroot : ¬(cleanWindows p = "/" ∨ cleanWindows p = "\\") := by
    rintro (h1 | h1) <;> rw [h1] at hd <;> exact absurd hd (by decide)
  have hshort : ¬((cleanWindows p).length ≤ 3 ∧
      (cleanWindows p).data.contains ':') := by
    rintro ⟨hle, _⟩
    have heq : (cleanWindows p).length = (cleanWindows p).data.length := rfl
    omega
  have hdepth : ¬(numParts '\\' (cleanWindows p).data < 3) := by
    have h6 := compCount_drop_le_numParts (cleanWindows p).data
    omega
  simp only [isSafePathWindows]
  rw [if_neg hroot, if_neg hshort, if_neg hb, if_neg hup, if_neg hdepth]

/-! ## Case- and trailing-separator variants of the protected fixtures -/

/-- Every Unix denylist entry is already in `Clean`ed form and nonempty. -/
theorem unixBlacklist_facts :
    ∀ s ∈ unixBlacklist, cleanUnix s = s ∧ s.data ≠ [] := by decide

/-- Every Windows denylist entry is already in `Clean`ed form, nonempty, and
longer than a bare volume name. -/
theorem winBlacklist_facts :
    ∀ s ∈ winBlacklist, cleanWindows s = s ∧ s.data ≠ [] ∧
      (volumeLen s.data = 2 → 3 ≤ s.data.length) := by decide

/-- Lower-casing and cleaning any case variant of a Unix denylist entry,
with any run of trailing separators appended, lands exactly on the entry. -/
theorem unixBlacklist_variant_clean {s : String} (hs : s ∈ unixBlacklist)
    {w seps : List Char} (hw : lowerL w = s.data)
    (hseps : ∀ c ∈ seps, c = '/') :
    lowerS (cleanUnix ⟨w ++ seps⟩) = s := by
  obtain ⟨hfix, hne⟩ := unixBlacklist_facts s hs
  have hwne : w ≠ [] := by
    intro h
    rw [h] at hw
    exact hne hw.symm
  have hdata : lowerL (cleanUnixL (w ++ seps)) = s.data := by
    rw [← cleanUnixL_lower, lowerL_append, hw, lowerL_slash_fixed hseps,
      cleanUnixL_append_seps hne hseps]
    exact congrArg String.data hfix
  show (⟨lowerL (cleanUnixL (w ++ seps))⟩ : String) = s
  rw [hdata]

/-- The same for the Windows denylist. -/
theorem winBlacklist_variant_clean {s : String} (hs : s ∈ winBlacklist)
    {w seps : List Char} (hw : lowerL w = s.data)
    (hseps : ∀ c ∈ seps, isWinSep c = true) :
    lowerS (cleanWindows ⟨w ++ seps⟩) = s := by
  obtain ⟨hfix, hne, hvol⟩ := winBlacklist_facts s hs
  have hdata : lowerL (cleanWindowsL (w ++ seps)) = s.data := by
    rw [← cleanWindowsL_lower, lowerL_append, hw, lowerL_sep_fixed hseps,
      cleanWindowsL_append_seps hne hvol hseps]
    exact congrArg String.data hfix
  show (⟨lowerL (cleanWindowsL (w ++ seps))⟩ : String) = s
  rw [hdata]

/-- Lower-casing and cleaning any case variant of a cleaned `USERPROFILE`
value, with trailing separators appended, lands on the lower-cased profile. -/
theorem winProfile_variant_clean {up : String} (hfix : cleanWindows up = up)
    {w seps : List Char} (hw : lowerL w = lowerL up.data)
    (hseps : ∀ c ∈ seps, isWinSep c = true) :
    lowerS (cleanWindows ⟨w ++ seps⟩) = lowerS up := by
  have hfixdata : cleanWindowsL up.data = up.data := congrArg String.data hfix
  have hupne : up.data ≠ [] := by
    intro h
    rw [h] at hfixdata
    exact absurd hfixdata (by decide)
  have hvol : volumeLen up.data = 2 → 3 ≤ up.data.length := by
    intro hv
    by_contra hlt
    push_neg at hlt
    have hge : 2 ≤ up.data.length := by
      have := volumeLen_le_length up.data
      omega
    have hL : up.data.length = 2 := by omega
    have hrest : up.data.drop (volumeLen up.data) = [] := by
      rw [List.drop_eq_nil_iff]
      omega
    simp only [cleanWindowsL, if_pos hrest] at hfixdata
    have := congrArg List.length hfixdata
    simp at this
  have hfix2 : cleanWindowsL (lowerL up.data) = lowerL up.data := by
    rw [cleanWindowsL_lower, hfixdata]
  have hlne : lowerL up.data ≠ [] := lowerL_ne_nil hupne
  have hlvol : volumeLen (lowerL up.data) = 2 → 3 ≤ (lowerL up.data).length := by
    rw [volumeLen_lower]
    intro hv
    have := hvol hv
    simpa [lowerL] using this
  have hdata : lowerL (cleanWindowsL (w ++ seps)) = lowerL up.data := by
    rw [← cleanWindowsL_lower, lowerL_append, hw, lowerL_sep_fixed hseps,
      cleanWindowsL_append_seps hlne hlvol hseps, hfix2]
  show (⟨lowerL (cleanWindowsL (w ++ seps))⟩ : String) = lowerS up
  rw [hdata]
  rfl

/-! ## Root fixtures -/

theorem cleanUnix_slashRun (k : Nat) :
    cleanUnix ⟨List.replicate (k + 1) '/'⟩ = "/" := by
  show (⟨cleanUnixL (List.replicate (k + 1) '/')⟩ : String) = "/"
  rw [cleanUnixL_slashes]

theorem cleanElems_of_sepRun (r : Bool) {m : List Char} (isS : Char → Bool)
    (hm : ∀ c ∈ m, isS c = true) :
    cleanElems r (splitSep isS m) = [] := by
  rw [splitSep_sepRun hm]
  have := cleanElems_append_empties r [] ([] :: m.map (fun _ => []))
    (by simp)
  simpa using this

theorem cleanWindows_backslashRun (k : Nat) :
    cleanWindows ⟨List.replicate (k + 1) '\\'⟩ = "\\" := by
  show (⟨cleanWindowsL (List.replicate (k + 1) '\\')⟩ : String) = "\\"
  have hvol : volumeLen (List.replicate (k + 1) '\\') = 0 := by
    cases k with
    | zero => rfl
    | succ j =>
      rw [List.replicate_succ, List.replicate_succ]
      simp [volumeLen]
  have hrep : ∀ c ∈ List.replicate (k + 1) '\\', isWinSep c = true := by
    intro c hc
    rw [List.eq_of_mem_replicate hc]
    rfl
  simp only [cleanWindowsL, hvol, List.drop_zero, List.take_zero]
  rw [if_neg (by simp : ¬(List.replicate (k + 1) '\\' = [])),
    cleanElems_of_sepRun _ isWinSep hrep,
    show (List.replicate (k + 1) '\\').headD ' ' = '\\' from by
      rw [List.replicate_succ]
      rfl]
  simp [isWinSep]

theorem strLength_mk (l : List Char) : (⟨l⟩ : String).length = l.length := rfl

/-- A bare drive root (any character followed by a colon and any run of
trailing backslashes) is rejected by the Windows Safety Validator. -/
theorem winDriveRoot_protected (up : String) (c : Char) (k : Nat) :
    isSafePathWindows up ⟨c :: ':' :: List.replicate k '\\'⟩ = false := by
  have hrep : ∀ x ∈ List.replicate k '\\', isWinSep x = true := by
    intro x hx
    rw [List.eq_of_mem_replicate hx]
    rfl
  apply isSafePathWindows_false_of_short
  by_cases hdl : isDriveLetter c = true
  · have hvol : volumeLen (c :: ':' :: List.replicate k '\\') = 2 := by
      simp [volumeLen, hdl]
    have hfs : fromSlashChar c = c := by
      unfold fromSlashChar
      rw [if_neg ?hc]
      case hc =>
        intro hcontra
        rw [hcontra] at hdl
        exact absurd hdl (by decide)
    have hfc : fromSlashChar ':' = ':' := by decide
    cases k with
    | zero =>
      have hvol0 : volumeLen [c, ':'] = 2 := by simp [volumeLen, hdl]
      have hcl : cleanWindows ⟨[c, ':']⟩ = ⟨[c, ':', '.']⟩ := by
        show (⟨cleanWindowsL [c, ':']⟩ : String) = _
        simp only [cleanWindowsL, hvol0]
        rw [if_pos (show List.drop 2 [c, ':'] = ([] : List Char) from rfl)]
        simp only [List.map_cons, List.map_nil, hfs, hfc]
        rfl
      rw [show (⟨c :: ':' :: List.replicate 0 '\\'⟩ : String) = ⟨[c, ':']⟩ from rfl,
        hcl]
      refine ⟨?_, by
        simp [List.contains, List.elem]
        cases ':' == c <;> rfl⟩
      rw [strLength_mk]
      simp
    | succ j =>
      have hvol1 : volumeLen (c :: ':' :: List.replicate (j + 1) '\\') = 2 := by
        simp [volumeLen, hdl]
      have hcl : cleanWindows ⟨c :: ':' :: List.replicate (j + 1) '\\'⟩ =
          ⟨[c, ':', '\\']⟩ := by
        show (⟨cleanWindowsL (c :: ':' :: List.replicate (j + 1) '\\')⟩ :
          String) = _
        simp only [cleanWindowsL, hvol1]
        rw [show List.drop 2 (c :: ':' :: List.replicate (j + 1) '\\') =
            List.replicate (j + 1) '\\' from rfl,
          if_neg (by simp : ¬(List.replicate (j + 1) '\\' = [])),
          cleanElems_of_sepRun _ isWinSep hrep,
          show (List.replicate (j + 1) '\\').headD ' ' = '\\' from by
            rw [List.replicate_succ]
            rfl,
          show List.take 2 (c :: ':' :: List.replicate (j + 1) '\\') = [c, ':']
            from rfl]
        simp [isWinSep, hfs, hfc]
      rw [hcl]
      refine ⟨?_, by
        simp [List.contains, List.elem]
        cases ':' == c <;> rfl⟩
      rw [strLength_mk]
      simp
  · have hvol : volumeLen (c :: ':' :: List.replicate k '\\') = 0 := by
      simp [volumeLen, hdl]
    have hsplit2 : splitSep isWinSep (':' :: List.replicate k '\\') =
        [':'] :: (List.replicate k '\\').map (fun _ => []) := by
      obtain ⟨e, es, h1, h2⟩ :=
        @splitSep_cons_not isWinSep ':' (by decide)
          (List.replicate k '\\')
      rw [splitSep_sepRun hrep] at h1
      injection h1 with he hes
      rw [h2, ← he, ← hes]
    by_cases hws : isWinSep c = true
    · have hclean : cleanWindows ⟨c :: ':' :: List.replicate k '\\'⟩ =
          ⟨['\\', ':']⟩ := by
        show (⟨cleanWindowsL (c :: ':' :: List.replicate k '\\')⟩ : String) = _
        simp only [cleanWindowsL, hvol, List.drop_zero, List.take_zero,
          if_neg (by simp : ¬(c :: ':' :: List.replicate k '\\' = []))]
        rw [show (c :: ':' :: List.replicate k '\\').headD ' ' = c from rfl,
          splitSep_cons_sep hws, hsplit2, cleanElems_cons_empty]
        have hgood : cleanElems (isWinSep c)
            ([':'] :: (List.replicate k '\\').map (fun _ => [])) = [[':']] := by
          have h1 := cleanElems_append_empties (isWinSep c) [[':']]
            ((List.replicate k '\\').map (fun _ => [])) (by simp)
          rw [show ([[':']] ++ (List.replicate k '\\').map (fun _ => [])) =
            ([':'] :: (List.replicate k '\\').map (fun _ => [])) from rfl] at h1
          rw [h1]
          exact cleanElems_good (by decide) _
        rw [hgood, hws]
        simp [joinSep]
      rw [hclean]
      exact ⟨by decide, by decide⟩
    · have hclean : cleanWindows ⟨c :: ':' :: List.replicate k '\\'⟩ =
          ⟨[c, ':']⟩ := by
        show (⟨cleanWindowsL (c :: ':' :: List.replicate k '\\')⟩ : String) = _
        simp only [cleanWindowsL, hvol, List.drop_zero, List.take_zero,
          if_neg (by simp : ¬(c :: ':' :: List.replicate k '\\' = []))]
        rw [show (c :: ':' :: List.replicate k '\\').headD ' ' = c from rfl]
        obtain ⟨e, es, h1, h2⟩ :=
          @splitSep_cons_not isWinSep c
            (by simpa using hws) (':' :: List.replicate k '\\')
        rw [hsplit2] at h1
        injection h1 with he hes
        rw [h2, ← he, ← hes]
        have hgood : cleanElems (isWinSep c)
            ([c, ':'] :: (List.replicate k '\\').map (fun _ => [])) =
            [[c, ':']] := by
          have h1 := cleanElems_append_empties (isWinSep c) [[c, ':']]
            ((List.replicate k '\\').map (fun _ => [])) (by simp)
          rw [show ([[c, ':']] ++ (List.replicate k '\\').map (fun _ => [])) =
            ([c, ':'] :: (List.replicate k '\\').map (fun _ => [])) from rfl] at h1
          rw [h1]
          apply cleanElems_good
          intro e he2
          simp at he2
          rw [he2]
          simp [goodElem]
        rw [hgood, if_neg (by simpa using hws), if_neg (by simp)]
        rfl
      rw [hclean]
      refine ⟨?_, by
        simp [List.contains, List.elem]
        cases ':' == c <;> rfl⟩
      rw [strLength_mk]
      simp

theorem winBackslashRoot_protected (up : String) (k : Nat) :
    isSafePathWindows up ⟨List.replicate (k + 1) '\\'⟩ = false :=
  isSafePathWindows_false_of_root (Or.inr (cleanWindows_backslashRun k))

theorem unixSlashRoot_protected (k : Nat) :
    isSafePathUnix ⟨List.replicate (k + 1) '/'⟩ = false :=
  isSafePathUnix_false_of_root (Or.inl (cleanUnix_slashRun k))

theorem unixSlashRoot_protected_legacy (k : Nat) :
    isSafePathUnixLegacy ⟨List.replicate (k + 1) '/'⟩ = false :=
  isSafePathUnixLegacy_false_of_root (Or.inl (cleanUnix_slashRun k))

theorem numParts_eq (sep : Char) (l : List Char) :
    numParts sep l =
      if trimBoth (fun c => decide (c = sep)) l = [] then 1 else compCount sep l := by
  simp only [numParts, compCount]
  by_cases ht : trimBoth (fun c => decide (c = sep)) l = []
  · rw [if_pos ht, ht]
    rfl
  · rw [if_neg ht, if_neg ht]

theorem numParts_lt_of_depth_lt {sep : Char} {l : List Char}
    (h : compCount sep l < 3) : numParts sep l < 3 := by
  rw [numParts_eq]
  split
  · omega
  · exact h

/-! # Claim C1

Claim (as stated): for every protected-path fixture — the filesystem root
(`/` or a bare Windows drive root), every entry of the active platform's
system denylist, and the current user's whole home/profile directory —
`isSafePath` returns Protected (false), and this verdict is unchanged by
trailing path separators or by the character case of the input path.

The claim FAILS on the code for the home-directory fixture on Unix: neither
version of `isSafePath` consults the user's home directory on the non-Windows
branch.  The current version protects only homes whose depth below the root
is < 3 (as standard `/home/<user>` and `/root` are); the earlier
denylist-only version protects standard homes not at all. -/

/-- C1 counterexample: the claim instance for the home fixture is false at a
concrete input.  A Unix user whose home directory is `/srv/data/alice`
(three components below the root, as site-local layouts use) gets `Safe`
from the current `isSafePath`; with the standard home `/home/alice` the
earlier denylist-only version also answers `Safe`. -/
theorem C1_counterexample :
    isSafePathUnix "/srv/data/alice" = true ∧
    isSafePathUnixLegacy "/home/alice" = true := by decide

/-- C1 (amended): the root fixtures (`/`, a bare drive root, `\`) and every
denylist entry of either platform are Protected under arbitrary character
case and trailing separators, in both source versions; the Windows user
profile (stored in cleaned form, as `USERPROFILE` is) likewise; on Unix the
home directory is Protected exactly when the depth heuristic catches it —
its normalized form has fewer than 3 components below the root — there being
no dedicated home check in the Unix branch. -/
theorem C1_amended :
    (∀ k : Nat, isSafePathUnix ⟨List.replicate (k + 1) '/'⟩ = false ∧
      isSafePathUnixLegacy ⟨List.replicate (k + 1) '/'⟩ = false) ∧
    (∀ up : String, ∀ c : Char, ∀ k : Nat,
      isSafePathWindows up ⟨c :: ':' :: List.replicate k '\\'⟩ = false) ∧
    (∀ up : String, ∀ k : Nat,
      isSafePathWindows up ⟨List.replicate (k + 1) '\\'⟩ = false) ∧
    (∀ s ∈ unixBlacklist, ∀ w seps : List Char, lowerL w = s.data →
      (∀ c ∈ seps, c = '/') →
      isSafePathUnix ⟨w ++ seps⟩ = false ∧
      isSafePathUnixLegacy ⟨w ++ seps⟩ = false) ∧
    (∀ up : String, ∀ s ∈ winBlacklist, ∀ w seps : List Char,
      lowerL w = s.data → (∀ c ∈ seps, isWinSep c = true) →
      isSafePathWindows up ⟨w ++ seps⟩ = false) ∧
    (∀ up : String, cleanWindows up = up → ∀ w seps : List Char,
      lowerL w = lowerL up.data → (∀ c ∈ seps, isWinSep c = true) →
      isSafePathWindows up ⟨w ++ seps⟩ = false) ∧
    (∀ home : String, depthBelowRootUnix (cleanUnix home) < 3 →
      isSafePathUnix home = false) := by
  refine ⟨fun k => ⟨unixSlashRoot_protected k, unixSlashRoot_protected_legacy k⟩,
    winDriveRoot_protected, winBackslashRoot_protected,
    fun s hs w seps hw hseps => ?_, fun up s hs w seps hw hseps => ?_,
    fun up hfix w seps hw hseps => ?_, fun home hd => ?_⟩
  · have hmem : lowerS (cleanUnix ⟨w ++ seps⟩) ∈ unixBlacklist := by
      rw [unixBlacklist_variant_clean hs hw hseps]
      exact hs
    exact ⟨isSafePathUnix_false_of_blacklist hmem,
      isSafePathUnixLegacy_false_of_blacklist hmem⟩
  · apply isSafePathWindows_false_of_blacklist
    rw [winBlacklist_variant_clean hs hw hseps]
    exact hs
  · exact isSafePathWindows_false_of_profile
      (winProfile_variant_clean hfix hw hseps)
  · exact isSafePathUnix_false_of_depth (numParts_lt_of_depth_lt hd)

/-- C1 witness: the amended theorem applied at concrete fixtures — the
mixed-case Unix denylist variant `/EtC/` and the mixed-case Windows profile
variant `C:\USERS\Alice\` for profile `c:\users\alice`. -/
theorem C1_witness :
    (("/etc" : String) ∈ unixBlacklist ∧
      lowerL ("/EtC" : String).data = ("/etc" : String).data ∧
      cleanWindows "c:\\users\\alice" = "c:\\users\\alice" ∧
      lowerL ("C:\\USERS\\Alice" : String).data =
        lowerL ("c:\\users\\alice" : String).data) ∧
    isSafePathUnix ⟨("/EtC" : String).data ++ ['/']⟩ = false ∧
    isSafePathWindows "c:\\users\\alice"
      ⟨("C:\\USERS\\Alice" : String).data ++ ['\\']⟩ = false :=
  ⟨⟨by decide, by decide, by decide, by decide⟩,
   (C1_amended.2.2.2.1 "/etc" (by decide) _ ['/'] (by decide) (by decide)).1,
   C1_amended.2.2.2.2.2.1 "c:\\users\\alice" (by decide) _ ['\\'] (by decide)
     (by decide)⟩

/-! # Claim C2

Claim (as stated): every path whose normalized form has at least 3
components below the filesystem root and that is not an exact match of the
active platform's denylist is Safe.

The claim FAILS on the Windows branch: the user-profile check fires on a
path that is deep enough and on no denylist. -/

/-- C2 counterexample: with `USERPROFILE = c:\profiles\corp\alice` (a
relocated profile, 3 components below the drive root), that very path is
Protected although it satisfies both conditions of the claim. -/
theorem C2_counterexample :
    isSafePathWindows "c:\\profiles\\corp\\alice"
      "C:\\Profiles\\Corp\\Alice" = false ∧
    3 ≤ depthBelowRootWin (cleanWindows "C:\\Profiles\\Corp\\Alice") ∧
    lowerS (cleanWindows "C:\\Profiles\\Corp\\Alice") ∉ winBlacklist := by
  decide

/-- C2 (amended): every path whose normalized form has at least 3 components
below the filesystem root, is not a lower-cased exact match of the active
platform's denylist and (on Windows) is not the current user's profile
directory, is Safe. -/
theorem C2_amended :
    (∀ p : String, 3 ≤ depthBelowRootUnix (cleanUnix p) →
      lowerS (cleanUnix p) ∉ unixBlacklist → isSafePathUnix p = true) ∧
    (∀ up p : String, 3 ≤ depthBelowRootWin (cleanWindows p) →
      lowerS (cleanWindows p) ∉ winBlacklist →
      lowerS (cleanWindows p) ≠ lowerS up → isSafePathWindows up p = true) :=
  ⟨fun _ hd hb => isSafePathUnix_true_of hd hb,
   fun _ _ hd hb hup => isSafePathWindows_true_of hd hb hup⟩

/-- C2 witness: the amended theorem applied at `/var/cache/apt` (Unix) and
`C:\Users\Alice\AppData\Local\Temp` (Windows, profile `c:\users\alice`). -/
theorem C2_witness :
    (3 ≤ depthBelowRootUnix (cleanUnix "/var/cache/apt") ∧
      lowerS (cleanUnix "/var/cache/apt") ∉ unixBlacklist) ∧
    isSafePathUnix "/var/cache/apt" = true ∧
    isSafePathWindows "c:\\users\\alice"
      "C:\\Users\\Alice\\AppData\\Local\\Temp" = true :=
  ⟨⟨by decide, by decide⟩,
   C2_amended.1 "/var/cache/apt" (by decide) (by decide),
   C2_amended.2 "c:\\users\\alice" "C:\\Users\\Alice\\AppData\\Local\\Temp"
     (by decide) (by decide) (by decide)⟩

/-! # Claim C3

Claim: every path whose normalized form has fewer than 3 components below
the filesystem root is Protected, regardless of the denylist.

The code VIOLATES this on Windows, against its own comment.  The depth
check counts the drive specifier `C:` as a path component
(`strings.Split(strings.Trim(p, sep), sep)` on `C:\Users\Bob` yields
`["C:", "Users", "Bob"]`, 3 parts), so `C:\Users\Bob` — only 2 components
below the drive root, and the whole profile root of another user — passes
the depth check and every other check and is classified Safe.  The comment
above the check states the opposite: "This allows C:\Users\Name\AppData,
but blocks C:\Users\Name or C:\Users." -/

/-- C3: evaluation at the failing input.  With `USERPROFILE =
C:\Users\Alice`, the path `C:\Users\Bob` (2 components below the drive
root) is classified Safe because the drive specifier is counted as a third
component; on Unix the claim holds as the counts agree (for contrast,
`/a/b` is Protected). -/
theorem C3_eval :
    isSafePathWindows "c:\\users\\alice" "C:\\Users\\Bob" = true ∧
    depthBelowRootWin (cleanWindows "C:\\Users\\Bob") = 2 ∧
    numParts '\\' (cleanWindows "C:\\Users\\Bob").data = 3 ∧
    isSafePathUnix "/a/b" = false := by decide

/-! # The Cleanup Executor (`runCleanup`)

The executor is embedded as an explicit state-passing function over a flat
filesystem model: a list of entries, each an absolute path (component list)
with a node kind.  `filepath.Glob(expandHome(path))` is abstracted as a
resolution function `resolve` (the spec: matches are "recomputed from the
pattern at both discovery time and cleanup time"; their order "must not be
relied upon for correctness").  Failures of `os.Remove`/`os.RemoveAll` are
modelled by a permission oracle `perm` (a node can be deleted iff
`perm path`); failures of `os.ReadDir` by `readPerm`.  `os.RemoveAll`
removes bottom-up everything it can and reports an error iff some node
under the target could not be deleted; in the flat model an entry under the
target survives exactly when some entry at or below it is undeletable.
The model runs on the Unix host branch (`os.PathSeparator = '/'`), so the
safety check applied to a match is `isSafePathUnix` of its string form. -/

abbrev FPath := List String

inductive NodeKind where
  | file (size : Nat)
  | dir
deriving DecidableEq, Repr

structure FSEntry where
  path : FPath
  kind : NodeKind
deriving DecidableEq, Repr

abbrev FS := List FSEntry

/-- `type Program struct { Name string; Paths []string; Checked bool }`. -/
structure Program where
  Name : String
  Paths : List String
  Checked : Bool
deriving DecidableEq, Repr

/-- The per-path log lines `runCleanup` can emit (`logInfo`/`logWarn`/
`logOK` calls), with the data that identifies their subject. -/
inductive LogLine where
  | wouldDelete (m : FPath)
  | skippedUnsafe (m : FPath)
  | couldNotDeleteFile (m : FPath)
  | couldNotReadDir (m : FPath)
  | skippedChild (parent : FPath) (child : String)
  | cleanedOK (name : String)
deriving DecidableEq, Repr

/-- The string form of a resolved path on the Unix host. -/
def pathToString (m : FPath) : String :=
  ⟨'/' :: joinSep '/' (m.map String.data)⟩

/-- `os.Stat`: the entry at an exact path, if any. -/
def lookupFS (fs : FS) (p : FPath) : Option FSEntry :=
  fs.find? (fun e => e.path = p)

/-- An entry of `fs` survives `os.RemoveAll c` iff it is outside `c`, or
some entry at or below it is undeletable (Go removes bottom-up, keeping
every ancestor of an undeletable node). -/
def raSurvives (perm : FPath → Bool) (fs : FS) (c : FPath) (e : FSEntry) : Bool :=
  !(c.isPrefixOf e.path) || fs.any (fun s => e.path.isPrefixOf s.path && !perm s.path)

/-- `os.RemoveAll c` on the filesystem state. -/
def removeAllFS (perm : FPath → Bool) (fs : FS) (c : FPath) : FS :=
  fs.filter (raSurvives perm fs c)

/-- `os.RemoveAll c` returns an error iff some node under `c` (including
`c` itself) cannot be deleted. -/
def raFails (perm : FPath → Bool) (fs : FS) (c : FPath) : Bool :=
  fs.any (fun s => c.isPrefixOf s.path && !perm s.path)

/-- `os.Remove` on a plain file: drop exactly that path. -/
def removeFileFS (fs : FS) (p : FPath) : FS :=
  fs.filter (fun e => !(e.path = p : Bool))

/-- `os.ReadDir m`: names of the immediate children of `m`. -/
def readDirFS (fs : FS) (m : FPath) : List String :=
  fs.filterMap (fun e =>
    if e.path.length = m.length + 1 ∧ m.isPrefixOf e.path then e.path.getLast?
    else none)

/-- The inner loop over the entries of a directory: each child is removed
with `os.RemoveAll`; a failure is logged (`Skipped <name>: <err>`) and does
not stop the loop. -/
def removeChildren (perm : FPath → Bool) (m : FPath) :
    List String → FS → FS × List LogLine
  | [], fs => (fs, [])
  | name :: rest, fs =>
    let child := m ++ [name]
    let failed := raFails perm fs child
    let fs2 := removeAllFS perm fs child
    let r := removeChildren perm m rest fs2
    (r.1, (if failed then [LogLine.skippedChild m name] else []) ++ r.2)

/-- The body of `runCleanup`'s innermost loop, for one resolved match `m`:
dry run → log only; unsafe → log and skip; `os.Stat` failure → silent
`continue`; file → `os.Remove`; directory → `os.ReadDir` then per-child
`os.RemoveAll`. -/
def processMatch (dry : Bool) (perm readPerm : FPath → Bool) (fs : FS)
    (m : FPath) : FS × List LogLine :=
  if dry then (fs, [LogLine.wouldDelete m])
  else if isSafePathUnix (pathToString m) = false then
    (fs, [LogLine.skippedUnsafe m])
  else
    match lookupFS fs m with
    | none => (fs, [])
    | some e =>
      match e.kind with
      | NodeKind.file _ =>
        if perm m then (removeFileFS fs m, [])
        else (fs, [LogLine.couldNotDeleteFile m])
      | NodeKind.dir =>
        if readPerm m = false then (fs, [LogLine.couldNotReadDir m])
        else removeChildren perm m (readDirFS fs m) fs

/-- The inner two loops of one checked program: every pattern is
re-resolved and every match is processed in order. -/
def processPaths (dry : Bool) (resolve : String → List FPath)
    (perm readPerm : FPath → Bool) (paths : List String)
    (acc : FS × List LogLine) : FS × List LogLine :=
  paths.foldl (fun acc2 pat =>
    (resolve pat).foldl (fun acc3 m =>
      let s := processMatch dry perm readPerm acc3.1 m
      (s.1, acc3.2 ++ s.2)) acc2) acc

/-- One program of the outer loop: an unchecked program is skipped
(`continue`); a checked one increments `count`, has its paths processed,
and gets a `logOK("Cleaned " + p.Name)` line unless in a dry run. -/
def processProgram (dry : Bool) (resolve : String → List FPath)
    (perm readPerm : FPath → Bool) (acc : FS × List LogLine × Nat)
    (p : Program) : FS × List LogLine × Nat :=
  if p.Checked = false then acc
  else
    let r := processPaths dry resolve perm readPerm p.Paths (acc.1, acc.2.1)
    ((r.1 : FS), (if dry then r.2 else r.2 ++ [LogLine.cleanedOK p.Name]),
      acc.2.2 + 1)

structure CleanupReport where
  fs : FS
  logs : List LogLine
  count : Nat
  cleanedMB : Int
deriving Repr

/-- `runCleanup`: a full pass over all programs.  `beforeFree`/`afterFree`
are the `getDiskMetrics` samples (display only); `totalCleanedMB` is
clamped to zero when negative or in a dry run, exactly as in the source. -/
def runCleanup (dry : Bool) (resolve : String → List FPath)
    (perm readPerm : FPath → Bool) (programs : List Program) (fs : FS)
    (beforeFree afterFree : Int) : CleanupReport :=
  let r := programs.foldl (processProgram dry resolve perm readPerm) (fs, [], 0)
  let delta := (afterFree - beforeFree) * 1024
  { fs := r.1
    logs := r.2.1
    count := r.2.2
    cleanedMB := if delta < 0 ∨ dry then 0 else delta }

/-- The resolved matches of all checked programs, in processing order. -/
def allMatches (resolve : String → List FPath) (programs : List Program) :
    List FPath :=
  (programs.filter (fun p => p.Checked)).flatMap
    (fun p => p.Paths.flatMap resolve)

/-- The filesystem effect of one match, as used by the fold lemmas. -/
def stepFS (perm readPerm : FPath → Bool) (g : FS) (m : FPath) : FS :=
  (processMatch false perm readPerm g m).1

/-! ## Fold characterizations of `runCleanup` -/

theorem allMatches_cons (resolve : String → List FPath) (p : Program)
    (programs : List Program) :
    allMatches resolve (p :: programs) =
      (if p.Checked then p.Paths.flatMap resolve else []) ++
        allMatches resolve programs := by
  unfold allMatches
  cases hp : p.Checked <;> simp [List.filter_cons, hp]

theorem mem_allMatches {resolve : String → List FPath} {programs : List Program}
    {p : Program} {pat : String} {m : FPath} (hp : p ∈ programs)
    (hc : p.Checked = true) (hpat : pat ∈ p.Paths) (hm : m ∈ resolve pat) :
    m ∈ allMatches resolve programs := by
  unfold allMatches
  rw [List.mem_flatMap]
  exact ⟨p, List.mem_filter.mpr ⟨hp, hc⟩, List.mem_flatMap.mpr ⟨pat, hpat, hm⟩⟩

theorem dry_matches_fold (perm readPerm : FPath → Bool) (ms : List FPath) :
    ∀ acc : FS × List LogLine,
      ms.foldl (fun acc3 m =>
        let s := processMatch true perm readPerm acc3.1 m
        (s.1, acc3.2 ++ s.2)) acc =
      (acc.1, acc.2 ++ ms.map LogLine.wouldDelete) := by
  induction ms with
  | nil => intro acc; simp
  | cons m rest ih =>
    intro acc
    rw [List.foldl_cons, ih]
    simp [processMatch]

theorem processPaths_dry (resolve : String → List FPath)
    (perm readPerm : FPath → Bool) (paths : List String) :
    ∀ acc : FS × List LogLine,
      processPaths true resolve perm readPerm paths acc =
      (acc.1, acc.2 ++ (paths.flatMap resolve).map LogLine.wouldDelete) := by
  unfold processPaths
  induction paths with
  | nil => intro acc; simp
  | cons pat rest ih =>
    intro acc
    rw [List.foldl_cons, dry_matches_fold, ih]
    simp

theorem foldl_processProgram_count (dry : Bool) (resolve : String → List FPath)
    (perm readPerm : FPath → Bool) (programs : List Program) :
    ∀ acc : FS × List LogLine × Nat,
      (programs.foldl (processProgram dry resolve perm readPerm) acc).2.2 =
        acc.2.2 + (programs.filter (fun p => p.Checked)).length := by
  induction programs with
  | nil => intro acc; simp
  | cons p rest ih =>
    intro acc
    rw [List.foldl_cons]
    cases hp : p.Checked with
    | false =>
      rw [show processProgram dry resolve perm readPerm acc p = acc from by
        unfold processProgram; rw [if_pos hp], ih]
      simp [List.filter_cons, hp]
    | true =>
      rw [ih (processProgram dry resolve perm readPerm acc p)]
      have hcount : (processProgram dry resolve perm readPerm acc p).2.2 =
          acc.2.2 + 1 := by
        unfold processProgram
        rw [if_neg (by simp [hp])]
      rw [hcount]
      simp [List.filter_cons, hp]
      omega

theorem foldl_processProgram_dry (resolve : String → List FPath)
    (perm readPerm : FPath → Bool) (programs : List Program) :
    ∀ acc : FS × List LogLine × Nat,
      (programs.foldl (processProgram true resolve perm readPerm) acc).1 =
        acc.1 ∧
      (programs.foldl (processProgram true resolve perm readPerm) acc).2.1 =
        acc.2.1 ++ (allMatches resolve programs).map LogLine.wouldDelete := by
  induction programs with
  | nil => intro acc; simp [allMatches]
  | cons p rest ih =>
    intro acc
    rw [List.foldl_cons, allMatches_cons]
    cases hp : p.Checked with
    | false =>
      rw [show processProgram true resolve perm readPerm acc p = acc from by
        unfold processProgram; rw [if_pos hp]]
      simpa [hp] using ih acc
    | true =>
      have hstep : processProgram true resolve perm readPerm acc p =
          (acc.1, acc.2.1 ++ (p.Paths.flatMap resolve).map LogLine.wouldDelete,
            acc.2.2 + 1) := by
        unfold processProgram
        rw [if_neg (by simp [hp]), processPaths_dry]
        simp
      rw [hstep]
      obtain ⟨hfs, hlogs⟩ := ih (acc.1,
        acc.2.1 ++ (p.Paths.flatMap resolve).map LogLine.wouldDelete,
        acc.2.2 + 1)
      refine ⟨hfs, ?_⟩
      rw [hlogs]
      simp [hp]

/-- Log lines only accumulate: the inner loops append to the log. -/
theorem matches_fold_logs_mono (dry : Bool) (perm readPerm : FPath → Bool)
    (ms : List FPath) :
    ∀ acc : FS × List LogLine,
      ∃ L, (ms.foldl (fun acc3 m =>
        let s := processMatch dry perm readPerm acc3.1 m
        (s.1, acc3.2 ++ s.2)) acc).2 = acc.2 ++ L := by
  induction ms with
  | nil => intro acc; exact ⟨[], by simp⟩
  | cons m rest ih =>
    intro acc
    rw [List.foldl_cons]
    obtain ⟨L, hL⟩ := ih ((processMatch dry perm readPerm acc.1 m).1,
      acc.2 ++ (processMatch dry perm readPerm acc.1 m).2)
    exact ⟨(processMatch dry perm readPerm acc.1 m).2 ++ L, by
      rw [hL]; simp⟩

theorem processPaths_logs_mono (dry : Bool) (resolve : String → List FPath)
    (perm readPerm : FPath → Bool) (paths : List String) :
    ∀ acc : FS × List LogLine,
      ∃ L, (processPaths dry resolve perm readPerm paths acc).2 = acc.2 ++ L := by
  unfold processPaths
  induction paths with
  | nil => intro acc; exact ⟨[], by simp⟩
  | cons pat rest ih =>
    intro acc
    rw [List.foldl_cons]
    obtain ⟨L1, hL1⟩ := matches_fold_logs_mono dry perm readPerm (resolve pat) acc
    obtain ⟨L2, hL2⟩ := ih ((resolve pat).foldl (fun acc3 m =>
      let s := processMatch dry perm readPerm acc3.1 m
      (s.1, acc3.2 ++ s.2)) acc)
    exact ⟨L1 ++ L2, by rw [hL2, hL1]; simp⟩

theorem foldl_processProgram_logs_mono (dry : Bool)
    (resolve : String → List FPath) (perm readPerm : FPath → Bool)
    (programs : List Program) :
    ∀ acc : FS × List LogLine × Nat,
      ∃ L, (programs.foldl (processProgram dry resolve perm readPerm) acc).2.1 =
        acc.2.1 ++ L := by
  induction programs with
  | nil => intro acc; exact ⟨[], by simp⟩
  | cons p rest ih =>
    intro acc
    rw [List.foldl_cons]
    obtain ⟨L2, hL2⟩ := ih (processProgram dry resolve perm readPerm acc p)
    cases hp : p.Checked with
    | false =>
      refine ⟨L2, ?_⟩
      rw [hL2]
      unfold processProgram
      rw [if_pos hp]
    | true =>
      obtain ⟨L1, hL1⟩ := processPaths_logs_mono dry resolve perm readPerm
        p.Paths (acc.1, acc.2.1)
      have hstep : (processProgram dry resolve perm readPerm acc p).2.1 =
          acc.2.1 ++ (L1 ++ (if dry then [] else [LogLine.cleanedOK p.Name])) := by
        unfold processProgram
        rw [if_neg (by simp [hp])]
        cases dry <;> simp [hL1]
      exact ⟨L1 ++ (if dry then [] else [LogLine.cleanedOK p.Name]) ++ L2, by
        rw [hL2, hstep]; simp⟩

/-- A checked program's `Cleaned <name>` confirmation line is in the final
log of a non-dry run, whatever failed before or during its processing. -/
theorem cleanedOK_mem_foldl (resolve : String → List FPath)
    (perm readPerm : FPath → Bool) {programs : List Program} {p : Program}
    (hp : p ∈ programs) (hc : p.Checked = true) :
    ∀ acc : FS × List LogLine × Nat,
      LogLine.cleanedOK p.Name ∈
        (programs.foldl (processProgram false resolve perm readPerm) acc).2.1 := by
  induction programs with
  | nil => exact absurd hp (by simp)
  | cons q rest ih =>
    intro acc
    rw [List.foldl_cons]
    rcases List.mem_cons.mp hp with rfl | hp2
    · obtain ⟨L2, hL2⟩ := foldl_processProgram_logs_mono false resolve perm
        readPerm rest (processProgram false resolve perm readPerm acc p)
      rw [hL2]
      obtain ⟨L1, hL1⟩ := processPaths_logs_mono false resolve perm readPerm
        p.Paths (acc.1, acc.2.1)
      have hstep : (processProgram false resolve perm readPerm acc p).2.1 =
          acc.2.1 ++ L1 ++ [LogLine.cleanedOK p.Name] := by
        unfold processProgram
        rw [if_neg (by simp [hc])]
        simp [hL1]
      rw [hstep]
      simp
    · exact ih hp2 (processProgram false resolve perm readPerm acc q)

/-! # Claim C4

For every non-empty selection of checked entries, invoking the Cleanup
Executor with `dryRun = true` performs no filesystem mutation and reports a
space-reclaimed value of exactly zero. -/

/-- C4: in a dry run over any selection with at least one checked entry,
the filesystem state is returned unchanged (the dry branch of the match
loop only logs) and the reported `totalCleanedMB` is exactly zero (the
source clamps it to 0 whenever `*Flagdryrun` is set, regardless of the
disk-metric samples). -/
theorem C4_dry_run_pure (resolve : String → List FPath)
    (perm readPerm : FPath → Bool) (programs : List Program) (fs : FS)
    (beforeFree afterFree : Int)
    (hsel : ∃ p ∈ programs, p.Checked = true) :
    (runCleanup true resolve perm readPerm programs fs beforeFree afterFree).fs
      = fs ∧
    (runCleanup true resolve perm readPerm programs fs beforeFree
      afterFree).cleanedMB = 0 := by
  constructor
  · show (programs.foldl (processProgram true resolve perm readPerm)
      (fs, [], 0)).1 = fs
    exact (foldl_processProgram_dry resolve perm readPerm programs
      (fs, [], 0)).1
  · simp [runCleanup]

/-- C4 witness: a concrete dry run over one checked entry whose pattern
resolves to an existing three-level directory. -/
theorem C4_witness :
    (∃ p ∈ [Program.mk "X" ["p"] true], p.Checked = true) ∧
    (runCleanup true (fun _ => [["a", "b", "c"]]) (fun _ => true)
      (fun _ => true) [Program.mk "X" ["p"] true]
      [FSEntry.mk ["a", "b", "c"] NodeKind.dir] 5 9).fs =
      [FSEntry.mk ["a", "b", "c"] NodeKind.dir] ∧
    (runCleanup true (fun _ => [["a", "b", "c"]]) (fun _ => true)
      (fun _ => true) [Program.mk "X" ["p"] true]
      [FSEntry.mk ["a", "b", "c"] NodeKind.dir] 5 9).cleanedMB = 0 :=
  ⟨by decide,
   (C4_dry_run_pure _ _ _ _ _ _ _ ⟨Program.mk "X" ["p"] true, by decide⟩).1,
   (C4_dry_run_pure _ _ _ _ _ _ _ ⟨Program.mk "X" ["p"] true, by decide⟩).2⟩

/-! # Claim C6

A deletion or read failure while processing one checked entry never
prevents the processing of the remaining checked entries: the executor
completes a full pass and the processed count equals the number of checked
entries. -/

/-- C6: for every input — including any pattern of deletion failures
(`perm`) and directory-read failures (`readPerm`) — the count reported by
`runCleanup` equals the number of checked entries, and in a real run every
checked entry receives its `Cleaned <name>` completion line; the executor
is total, so no failure aborts the pass. -/
theorem C6_failures_contained (dry : Bool) (resolve : String → List FPath)
    (perm readPerm : FPath → Bool) (programs : List Program) (fs : FS)
    (beforeFree afterFree : Int) :
    (runCleanup dry resolve perm readPerm programs fs beforeFree
      afterFree).count = (programs.filter (fun p => p.Checked)).length ∧
    (dry = false → ∀ p ∈ programs, p.Checked = true →
      LogLine.cleanedOK p.Name ∈
        (runCleanup dry resolve perm readPerm programs fs beforeFree
          afterFree).logs) := by
  constructor
  · show (programs.foldl (processProgram dry resolve perm readPerm)
      (fs, [], 0)).2.2 = _
    rw [foldl_processProgram_count]
    simp
  · rintro rfl p hp hc
    exact cleanedOK_mem_foldl resolve perm readPerm hp hc (fs, [], 0)

/-- C6 witness: two checked entries with one unchecked between them; the
first entry's directory has an undeletable child (deletion failure logged),
yet the count is 2 and the last entry still gets its completion line. -/
theorem C6_witness :
    (false = false ∧ (Program.mk "C" ["q"] true) ∈
      [Program.mk "A" ["p"] true, Program.mk "B" [] false,
        Program.mk "C" ["q"] true] ∧
      (Program.mk "C" ["q"] true).Checked = true) ∧
    (runCleanup false
      (fun pat => if pat = "p" then [["x", "y", "z"]] else [["u", "v", "w"]])
      (fun q => !(q = ["x", "y", "z", "locked"] : Bool)) (fun _ => true)
      [Program.mk "A" ["p"] true, Program.mk "B" [] false,
        Program.mk "C" ["q"] true]
      [FSEntry.mk ["x", "y", "z"] NodeKind.dir,
        FSEntry.mk ["x", "y", "z", "locked"] (NodeKind.file 7),
        FSEntry.mk ["u", "v", "w"] NodeKind.dir] 0 0).count = 2 ∧
    LogLine.cleanedOK "C" ∈ (runCleanup false
      (fun pat => if pat = "p" then [["x", "y", "z"]] else [["u", "v", "w"]])
      (fun q => !(q = ["x", "y", "z", "locked"] : Bool)) (fun _ => true)
      [Program.mk "A" ["p"] true, Program.mk "B" [] false,
        Program.mk "C" ["q"] true]
      [FSEntry.mk ["x", "y", "z"] NodeKind.dir,
        FSEntry.mk ["x", "y", "z", "locked"] (NodeKind.file 7),
        FSEntry.mk ["u", "v", "w"] NodeKind.dir] 0 0).logs :=
  ⟨⟨rfl, by decide, by decide⟩,
   by
    have h := (C6_failures_contained false
      (fun pat => if pat = "p" then [["x", "y", "z"]] else [["u", "v", "w"]])
      (fun q => !(q = ["x", "y", "z", "locked"] : Bool)) (fun _ => true)
      [Program.mk "A" ["p"] true, Program.mk "B" [] false,
        Program.mk "C" ["q"] true]
      [FSEntry.mk ["x", "y", "z"] NodeKind.dir,
        FSEntry.mk ["x", "y", "z", "locked"] (NodeKind.file 7),
        FSEntry.mk ["u", "v", "w"] NodeKind.dir] 0 0).1
    rw [h]
    decide,
   (C6_failures_contained false
      (fun pat => if pat = "p" then [["x", "y", "z"]] else [["u", "v", "w"]])
      (fun q => !(q = ["x", "y", "z", "locked"] : Bool)) (fun _ => true)
      [Program.mk "A" ["p"] true, Program.mk "B" [] false,
        Program.mk "C" ["q"] true]
      [FSEntry.mk ["x", "y", "z"] NodeKind.dir,
        FSEntry.mk ["x", "y", "z", "locked"] (NodeKind.file 7),
        FSEntry.mk ["u", "v", "w"] NodeKind.dir] 0 0).2 rfl
     (Program.mk "C" ["q"] true) (by decide) (by decide)⟩

/-! # Claim C10

In dry-run mode the Safety Validator is never consulted: every resolved
path of a checked entry, including paths `isSafePath` would classify as
Protected, is reported as a would-delete target. -/

/-- C10: in a dry run, every resolved path of every checked entry appears
as a `Would empty directory` notice — with no safety condition whatsoever,
so Protected paths are listed exactly like safe ones (the dry-run branch of
the match loop precedes the `isSafePath` call). -/
theorem C10_dry_run_skips_validator (resolve : String → List FPath)
    (perm readPerm : FPath → Bool) (programs : List Program) (fs : FS)
    (beforeFree afterFree : Int) (p : Program) (pat : String) (m : FPath)
    (hp : p ∈ programs) (hc : p.Checked = true) (hpat : pat ∈ p.Paths)
    (hm : m ∈ resolve pat) :
    LogLine.wouldDelete m ∈ (runCleanup true resolve perm readPerm programs
      fs beforeFree afterFree).logs := by
  have hlogs := (foldl_processProgram_dry resolve perm readPerm programs
    (fs, [], 0)).2
  show LogLine.wouldDelete m ∈ (programs.foldl
    (processProgram true resolve perm readPerm) (fs, [], 0)).2.1
  rw [hlogs]
  simp only [List.nil_append]
  exact List.mem_map.mpr ⟨m, mem_allMatches hp hc hpat hm, rfl⟩

/-! ## Log-exactness lemmas for the real run -/

/-- The `¬perm` witness of an undeletable node is itself never removed by
`os.RemoveAll`, so `RemoveAll` failure is stable across sibling removals. -/
theorem mem_removeAllFS_of_noperm {perm : FPath → Bool} {fs : FS} {e : FSEntry}
    (h : e ∈ fs) (hp : perm e.path = false) (c : FPath) :
    e ∈ removeAllFS perm fs c := by
  unfold removeAllFS
  rw [List.mem_filter]
  refine ⟨h, ?_⟩
  unfold raSurvives
  have : fs.any (fun s => e.path.isPrefixOf s.path && !perm s.path) = true := by
    rw [List.any_eq_true]
    exact ⟨e, h, by rw [List.isPrefixOf_iff_prefix.mpr (List.prefix_refl _), hp]; rfl⟩
  rw [this]
  simp

theorem removeAllFS_sublist (perm : FPath → Bool) (fs : FS) (c : FPath) :
    List.Sublist (removeAllFS perm fs c) fs := List.filter_sublist _

theorem raFails_removeAllFS (perm : FPath → Bool) (fs : FS) (c c2 : FPath) :
    raFails perm (removeAllFS perm fs c2) c = raFails perm fs c := by
  unfold raFails
  rw [Bool.eq_iff_iff, List.any_eq_true, List.any_eq_true]
  constructor
  · rintro ⟨s, hs, hcond⟩
    exact ⟨s, (removeAllFS_sublist perm fs c2).subset hs, hcond⟩
  · rintro ⟨s, hs, hcond⟩
    have hnp : perm s.path = false := by
      rcases Bool.and_eq_true .. |>.mp hcond with ⟨_, h2⟩
      simpa using h2
    exact ⟨s, mem_removeAllFS_of_noperm hs hnp c2, hcond⟩

/-- Every log line of the per-child removal loop is a `Skipped <name>`
line for one of the processed names. -/
theorem removeChildren_logs_shape (perm : FPath → Bool) (m : FPath) :
    ∀ (names : List String) (g : FS),
      ∀ l ∈ (removeChildren perm m names g).2,
        ∃ nm ∈ names, l = LogLine.skippedChild m nm := by
  intro names
  induction names with
  | nil => intro g l hl; exact absurd hl (by simp [removeChildren])
  | cons n rest ih =>
    intro g l hl
    unfold removeChildren at hl
    simp only [List.mem_append] at hl
    rcases hl with hl | hl
    · refine ⟨n, by simp, ?_⟩
      by_cases hf : raFails perm g (m ++ [n]) = true
      · rw [if_pos hf] at hl
        simpa using hl
      · rw [if_neg hf] at hl
        exact absurd hl (by simp)
    · obtain ⟨nm, hnm, hleq⟩ := ih (removeAllFS perm g (m ++ [n])) l hl
      exact ⟨nm, by simp [hnm], hleq⟩

/-- Exactly one `Skipped <name>` failure line per failed child, when the
directory listing has no duplicate names (as a real directory does). -/
theorem removeChildren_count (perm : FPath → Bool) (m : FPath) :
    ∀ (names : List String) (g : FS), names.Nodup →
      ∀ name ∈ names,
        ((removeChildren perm m names g).2).count
            (LogLine.skippedChild m name) =
          if raFails perm g (m ++ [name]) then 1 else 0 := by
  intro names
  induction names with
  | nil => intro g _ name hname; exact absurd hname (by simp)
  | cons n rest ih =>
    intro g hnd name hname
    have hnd2 := List.nodup_cons.mp hnd
    unfold removeChildren
    simp only [List.count_append]
    rcases List.mem_cons.mp hname with rfl | hmem
    · have hrest0 : ((removeChildren perm m rest
          (removeAllFS perm g (m ++ [name]))).2).count
          (LogLine.skippedChild m name) = 0 := by
        rw [List.count_eq_zero]
        intro hmem2
        obtain ⟨nm, hnm, hleq⟩ := removeChildren_logs_shape perm m rest
          (removeAllFS perm g (m ++ [name])) _ hmem2
        injection hleq with h1 h2
        exact hnd2.1 (h2 ▸ hnm)
      rw [hrest0]
      by_cases hf : raFails perm g (m ++ [name]) = true
      · rw [if_pos hf, if_pos hf]
        simp
      · rw [if_neg hf, if_neg hf]
        simp
    · have hne : n ≠ name := fun h => hnd2.1 (h ▸ hmem)
      have hfirst0 : ((if raFails perm g (m ++ [n]) = true
          then [LogLine.skippedChild m n] else []) :
          List LogLine).count (LogLine.skippedChild m name) = 0 := by
        split
        · rw [List.count_eq_zero]
          intro hmem2
          simp at hmem2
          exact hne hmem2.symm
        · rfl
      rw [hfirst0, ih (removeAllFS perm g (m ++ [n])) hnd2.2 name hmem,
        raFails_removeAllFS]
      simp

/-- Exactly one `Skipped unsafe path` line per Protected match, and none
for a safe match, at the level of one match step. -/
theorem processMatch_skippedUnsafe_count (perm readPerm : FPath → Bool) (g : FS)
    (m q : FPath) :
    ((processMatch false perm readPerm g m).2).count (LogLine.skippedUnsafe q) =
      if q = m ∧ isSafePathUnix (pathToString m) = false then 1 else 0 := by
  unfold processMatch
  simp only [Bool.false_eq_true, if_false]
  by_cases hs : isSafePathUnix (pathToString m) = false
  · rw [if_pos hs]
    by_cases hq : q = m
    · subst hq
      rw [if_pos ⟨rfl, hs⟩]
      simp [List.count_cons]
    · rw [if_neg (fun hcon => hq hcon.1)]
      simp only [List.count_cons, List.count_nil, beq_iff_eq,
        LogLine.skippedUnsafe.injEq]
      rw [if_neg (fun h => hq h.symm)]
  · rw [if_neg hs,
      if_neg (show ¬(q = m ∧ isSafePathUnix (pathToString m) = false) from
        fun hcon => hs hcon.2)]
    cases hl : lookupFS g m with
    | none => rfl
    | some e =>
      cases hk : e.kind with
      | file sz =>
        by_cases hp : perm m = true
        · simp [hk, hp]
        · simp [hk, hp, List.count_cons]
      | dir =>
        by_cases hr : readPerm m = false
        · simp [hk, hr, List.count_cons]
        · simp only [hk, if_neg hr]
          rw [List.count_eq_zero]
          intro hmem
          obtain ⟨nm, _, hleq⟩ := removeChildren_logs_shape perm m
            (readDirFS g m) g _ hmem
          exact absurd hleq (by intro hcon; injection hcon)

theorem matches_fold_skippedUnsafe_count (perm readPerm : FPath → Bool)
    (ms : List FPath) :
    ∀ (acc : FS × List LogLine) (q : FPath),
      ((ms.foldl (fun acc3 m =>
        let s := processMatch false perm readPerm acc3.1 m
        (s.1, acc3.2 ++ s.2)) acc).2).count (LogLine.skippedUnsafe q) =
      acc.2.count (LogLine.skippedUnsafe q) +
        ms.countP (fun m =>
          decide (q = m) && !isSafePathUnix (pathToString m)) := by
  induction ms with
  | nil => intro acc q; simp
  | cons m rest ih =>
    intro acc q
    rw [List.foldl_cons, ih, List.countP_cons]
    simp only [List.count_append]
    rw [processMatch_skippedUnsafe_count]
    by_cases hq : q = m
    · subst hq
      by_cases hs : isSafePathUnix (pathToString q) = false
      · rw [if_pos ⟨rfl, hs⟩, if_pos (by simp [hs])]
        omega
      · rw [if_neg (by tauto), if_neg (by simp at hs; simp [hs])]
        omega
    · rw [if_neg (by tauto), if_neg (by simp [hq])]
      omega

theorem processPaths_skippedUnsafe_count (resolve : String → List FPath)
    (perm readPerm : FPath → Bool) (paths : List String) :
    ∀ (acc : FS × List LogLine) (q : FPath),
      ((processPaths false resolve perm readPerm paths acc).2).count
          (LogLine.skippedUnsafe q) =
      acc.2.count (LogLine.skippedUnsafe q) +
        (paths.flatMap resolve).countP (fun m =>
          decide (q = m) && !isSafePathUnix (pathToString m)) := by
  unfold processPaths
  induction paths with
  | nil => intro acc q; simp
  | cons pat rest ih =>
    intro acc q
    rw [List.foldl_cons, ih, matches_fold_skippedUnsafe_count, List.flatMap_cons,
      List.countP_append]
    omega

theorem foldl_processProgram_skippedUnsafe_count (resolve : String → List FPath)
    (perm readPerm : FPath → Bool) (programs : List Program) :
    ∀ (acc : FS × List LogLine × Nat) (q : FPath),
      ((programs.foldl (processProgram false resolve perm readPerm)
          acc).2.1).count (LogLine.skippedUnsafe q) =
      acc.2.1.count (LogLine.skippedUnsafe q) +
        (allMatches resolve programs).countP (fun m =>
          decide (q = m) && !isSafePathUnix (pathToString m)) := by
  induction programs with
  | nil => intro acc q; simp [allMatches]
  | cons p rest ih =>
    intro acc q
    rw [List.foldl_cons, ih, allMatches_cons, List.countP_append]
    cases hp : p.Checked with
    | false =>
      rw [show processProgram false resolve perm readPerm acc p = acc from by
        unfold processProgram; rw [if_pos hp]]
      simp
    | true =>
      have hstep : (processProgram false resolve perm readPerm acc p).2.1 =
          (processPaths false resolve perm readPerm p.Paths
            (acc.1, acc.2.1)).2 ++ [LogLine.cleanedOK p.Name] := by
        unfold processProgram
        rw [if_neg (by simp [hp])]
        simp only [Bool.false_eq_true, if_false]
      rw [hstep, List.count_append, processPaths_skippedUnsafe_count]
      have hok : ([LogLine.cleanedOK p.Name]).count (LogLine.skippedUnsafe q)
          = 0 := by
        simp only [List.count_cons, List.count_nil]
        rw [if_neg (by intro hcon; injection hcon)]
      rw [hok]
      simp
      omega

theorem countP_skippedUnsafe_branch (q : FPath) (ms : List FPath) :
    ms.countP (fun m => decide (q = m) && !isSafePathUnix (pathToString m)) =
      if isSafePathUnix (pathToString q) = false
      then (ms.filter (fun m => m = q)).length else 0 := by
  induction ms with
  | nil => simp
  | cons m rest ih =>
    rw [List.countP_cons, List.filter_cons, ih]
    by_cases hm : m = q
    · subst hm
      by_cases hs : isSafePathUnix (pathToString m) = false
      · rw [if_pos hs, if_pos hs, if_pos (by simp [hs]), if_pos (by simp)]
        simp
      · rw [if_neg hs, if_neg hs, if_neg (by simp at hs; simp [hs])]
    · have hqm : ¬q = m := fun h => hm h.symm
      have h1 : (decide (q = m) && !isSafePathUnix (pathToString m)) = false := by
        simp [hqm]
      have h2 : decide (m = q) = false := by simp [hm]
      rw [h1, h2]
      simp

/-! # The Selection State Machine (`handleMenu`)

The navigation and selection transitions of the main input loop, over the
list `existing` and the cursor `idx`. -/

/-- Move-up: `if idx > 0 { idx-- }`. -/
def moveUp (idx : Nat) : Nat := if 0 < idx then idx - 1 else idx

/-- Move-down: `if idx < len(existing)-1 { idx++ }` (`n` is the entry
count; Go's `len(existing)-1` on `int` agrees with `Nat` subtraction here
because the menu is entered only when `n ≥ 1`). -/
def moveDown (n idx : Nat) : Nat := if idx < n - 1 then idx + 1 else idx

/-- Toggle: `existing[idx].Checked = !existing[idx].Checked`. -/
def toggleAt : List Program → Nat → List Program
  | [], _ => []
  | e :: rest, 0 => { e with Checked := !e.Checked } :: rest
  | e :: rest, i + 1 => e :: toggleAt rest i

/-- Toggle-all: if every entry is checked, uncheck all, else check all
(`allChecked` scan followed by `existing[i].Checked = !allChecked`). -/
def toggleAll (l : List Program) : List Program :=
  let allChecked := l.all (fun p => p.Checked)
  l.map (fun e => { e with Checked := !allChecked })

/-! # Claim C8

Cursor and selection algebra of the state machine. -/

/-- C8: move-up maps the cursor `i` to `max 0 (i-1)`; move-down maps it to
`min (n-1) (i+1)` for any in-range cursor; toggling the entry under the
cursor twice restores the entry list; toggle-all checks every entry unless
all are checked, in which case it unchecks every entry. -/
theorem C8_selection_transitions :
    (∀ i : Nat, moveUp i = max 0 (i - 1)) ∧
    (∀ n i : Nat, i < n → moveDown n i = min (n - 1) (i + 1)) ∧
    (∀ (l : List Program) (i : Nat), toggleAt (toggleAt l i) i = l) ∧
    (∀ l : List Program, l.all (fun p => p.Checked) = false →
      ∀ p ∈ toggleAll l, p.Checked = true) ∧
    (∀ l : List Program, l.all (fun p => p.Checked) = true →
      ∀ p ∈ toggleAll l, p.Checked = false) := by
  refine ⟨?_, ?_, ?_, ?_, ?_⟩
  · intro i
    unfold moveUp
    split <;> omega
  · intro n i hi
    unfold moveDown
    split <;> omega
  · intro l
    induction l with
    | nil => intro i; rfl
    | cons e rest ih =>
      intro i
      cases i with
      | zero =>
        show toggleAt ({ e with Checked := !e.Checked } :: rest) 0 = e :: rest
        unfold toggleAt
        cases e
        simp
      | succ j =>
        show e :: toggleAt (toggleAt rest j) j = e :: rest
        rw [ih j]
  · intro l h p hp
    unfold toggleAll at hp
    obtain ⟨e, _, he⟩ := List.mem_map.mp hp
    rw [← he, h]
    rfl
  · intro l h p hp
    unfold toggleAll at hp
    obtain ⟨e, _, he⟩ := List.mem_map.mp hp
    rw [← he, h]
    rfl

/-- C8 witness: the transitions evaluated on a concrete two-entry menu. -/
theorem C8_witness :
    ((1 : Nat) < 2 ∧ moveDown 2 1 = min 1 2) ∧
    moveUp 0 = 0 ∧
    toggleAt (toggleAt [Program.mk "A" [] false, Program.mk "B" [] true] 1) 1 =
      [Program.mk "A" [] false, Program.mk "B" [] true] ∧
    (∀ p ∈ toggleAll [Program.mk "A" [] false, Program.mk "B" [] true],
      p.Checked = true) :=
  ⟨⟨by decide, C8_selection_transitions.2.1 2 1 (by decide)⟩,
   C8_selection_transitions.1 0,
   C8_selection_transitions.2.2.1
     [Program.mk "A" [] false, Program.mk "B" [] true] 1,
   C8_selection_transitions.2.2.2.1
     [Program.mk "A" [] false, Program.mk "B" [] true] (by decide)⟩

/-- C10 witness: the path `/etc` — which `isSafePath` classifies as
Protected — is still reported as a would-delete target by a dry run. -/
theorem C10_witness :
    isSafePathUnix (pathToString ["etc"]) = false ∧
    LogLine.wouldDelete ["etc"] ∈ (runCleanup true (fun _ => [["etc"]])
      (fun _ => true) (fun _ => true) [Program.mk "X" ["p"] true] [] 0
      0).logs :=
  ⟨by decide,
   C10_dry_run_skips_validator (fun _ => [["etc"]]) (fun _ => true)
     (fun _ => true) [Program.mk "X" ["p"] true] [] 0 0
     (Program.mk "X" ["p"] true) "p" ["etc"] (by decide) (by decide)
     (by decide) (by decide)⟩

theorem find?_filter_stable {α : Type} (l : List α) (keep pred : α → Bool)
    (h : ∀ x ∈ l, pred x = true → keep x = true) :
    (l.filter keep).find? pred = l.find? pred := by
  induction l with
  | nil => rfl
  | cons x t ih =>
    rw [List.filter_cons]
    by_cases hp : pred x = true
    · rw [if_pos (h x (List.mem_cons_self x t) hp), List.find?_cons_of_pos _ hp,
        List.find?_cons_of_pos _ hp]
    · have hp2 : pred x = false := by
        cases hpx : pred x
        · rfl
        · exact absurd hpx hp
      have ihr := ih (fun y hy => h y (List.mem_cons_of_mem x hy))
      by_cases hk : keep x = true
      · rw [if_pos hk, List.find?_cons_of_neg _ hp, List.find?_cons_of_neg _ hp,
          ihr]
      · rw [if_neg hk, List.find?_cons_of_neg _ hp, ihr]

/-- `os.RemoveAll c` leaves every lookup outside `c` unchanged. -/
theorem lookupFS_removeAllFS (perm : FPath → Bool) (g : FS) (c q : FPath)
    (h : c.isPrefixOf q = false) :
    lookupFS (removeAllFS perm g c) q = lookupFS g q := by
  unfold lookupFS removeAllFS
  refine find?_filter_stable g _ _ (fun x _ hx => ?_)
  have hq : x.path = q := by simpa using hx
  unfold raSurvives
  rw [hq, h]
  rfl

/-- `os.Remove m` leaves every lookup at another path unchanged. -/
theorem lookupFS_removeFileFS (g : FS) (p q : FPath) (h : ¬q = p) :
    lookupFS (removeFileFS g p) q = lookupFS g q := by
  unfold lookupFS removeFileFS
  refine find?_filter_stable g _ _ (fun x _ hx => ?_)
  have hq : x.path = q := by simpa using hx
  simp [hq, h]

/-- After `os.Remove m` the file at `m` is gone. -/
theorem lookupFS_removeFileFS_self (g : FS) (p : FPath) :
    lookupFS (removeFileFS g p) p = none := by
  unfold lookupFS removeFileFS
  rw [List.find?_eq_none]
  intro x hx
  rcases List.mem_filter.mp hx with ⟨_, hkeep⟩
  simp only [Bool.not_eq_true'] at hkeep
  simp [hkeep]

/-- Emptying a directory's children leaves every lookup not strictly below
one of those children unchanged. -/
theorem lookupFS_removeChildren (perm : FPath → Bool) (k : FPath) :
    ∀ (names : List String) (g : FS) (q : FPath),
      (∀ name ∈ names, (k ++ [name]).isPrefixOf q = false) →
      lookupFS (removeChildren perm k names g).1 q = lookupFS g q := by
  intro names
  induction names with
  | nil => intro g q _; rfl
  | cons n rest ih =>
    intro g q hn
    show lookupFS (removeChildren perm k rest
      (removeAllFS perm g (k ++ [n]))).1 q = lookupFS g q
    rw [ih _ q (fun name hname => hn name (List.mem_cons_of_mem n hname)),
      lookupFS_removeAllFS _ _ _ _ (hn n (List.mem_cons_self n rest))]

theorem removeChildren_fs_sublist (perm : FPath → Bool) (k : FPath) :
    ∀ (names : List String) (g : FS),
      List.Sublist (removeChildren perm k names g).1 g := by
  intro names
  induction names with
  | nil => intro g; exact List.Sublist.refl g
  | cons n rest ih =>
    intro g
    exact (ih (removeAllFS perm g (k ++ [n]))).trans
      (removeAllFS_sublist perm g (k ++ [n]))

/-- One match step never adds entries: its filesystem is a sublist of the
input. -/
theorem stepFS_sublist (perm readPerm : FPath → Bool) (g : FS) (m : FPath) :
    List.Sublist (stepFS perm readPerm g m) g := by
  unfold stepFS processMatch
  simp only [Bool.false_eq_true, if_false]
  by_cases hs : isSafePathUnix (pathToString m) = false
  · rw [if_pos hs]
  · rw [if_neg hs]
    cases hl : lookupFS g m with
    | none => exact List.Sublist.refl g
    | some e =>
      cases hk : e.kind with
      | file sz =>
        by_cases hp : perm m = true
        · simp only [hk, if_pos hp]
          exact List.filter_sublist g
        · simp only [hk, if_neg hp]
          exact List.Sublist.refl g
      | dir =>
        by_cases hr : readPerm m = false
        · simp only [hk, if_pos hr]
          exact List.Sublist.refl g
        · simp only [hk, if_neg hr]
          exact removeChildren_fs_sublist perm m (readDirFS g m) g

/-- A child path of `k` that is a prefix of `m` forces `k` itself to be a
proper prefix of `m`. -/
theorem child_prefix_absurd {k m : FPath} {name : String}
    (hpre : k.isPrefixOf m = true → k = m)
    (h : (k ++ [name]).isPrefixOf m = true) : False := by
  have h1 : (k ++ [name]).IsPrefix m := List.isPrefixOf_iff_prefix.mp h
  have h2 : k.IsPrefix m :=
    (List.prefix_append k [name]).trans h1
  have hk : k = m := hpre (List.isPrefixOf_iff_prefix.mpr h2)
  subst hk
  have := h1.length_le
  simp at this

/-- A directory entry survives any match step whose path is not a proper
ancestor of it. -/
theorem lookupFS_stepFS_preserved (perm readPerm : FPath → Bool) (g : FS)
    (k m : FPath) (e : FSEntry) (he : lookupFS g m = some e)
    (hkind : e.kind = NodeKind.dir) (hpre : k.isPrefixOf m = true → k = m) :
    lookupFS (stepFS perm readPerm g k) m = some e := by
  unfold stepFS processMatch
  simp only [Bool.false_eq_true, if_false]
  by_cases hs : isSafePathUnix (pathToString k) = false
  · rw [if_pos hs]
    exact he
  · rw [if_neg hs]
    cases hl : lookupFS g k with
    | none => exact he
    | some ek =>
      cases hkk : ek.kind with
      | file sz =>
        by_cases hp : perm k = true
        · simp only [hkk, if_pos hp]
          have hne : ¬m = k := by
            intro hmk
            subst hmk
            rw [he] at hl
            injection hl with h2
            rw [← h2, hkind] at hkk
            exact absurd hkk (by intro hcon; injection hcon)
          rw [lookupFS_removeFileFS g k m hne]
          exact he
        · simp only [hkk, if_neg hp]
          exact he
      | dir =>
        by_cases hr : readPerm k = false
        · simp only [hkk, if_pos hr]
          exact he
        · simp only [hkk, if_neg hr]
          rw [lookupFS_removeChildren perm k (readDirFS g k) g m ?hout]
          · exact he
          case hout =>
            intro name _
            cases hq : (k ++ [name]).isPrefixOf m
            · rfl
            · exact absurd (child_prefix_absurd hpre hq) not_false

theorem matches_fold_fs (perm readPerm : FPath → Bool) (ms : List FPath) :
    ∀ acc : FS × List LogLine,
      (ms.foldl (fun acc3 m =>
        let s := processMatch false perm readPerm acc3.1 m
        (s.1, acc3.2 ++ s.2)) acc).1 =
      ms.foldl (stepFS perm readPerm) acc.1 := by
  induction ms with
  | nil => intro acc; rfl
  | cons m rest ih =>
    intro acc
    rw [List.foldl_cons, List.foldl_cons, ih]
    rfl

theorem processPaths_fs (resolve : String → List FPath)
    (perm readPerm : FPath → Bool) (paths : List String) :
    ∀ acc : FS × List LogLine,
      (processPaths false resolve perm readPerm paths acc).1 =
      (paths.flatMap resolve).foldl (stepFS perm readPerm) acc.1 := by
  unfold processPaths
  induction paths with
  | nil => intro acc; rfl
  | cons pat rest ih =>
    intro acc
    rw [List.foldl_cons, ih, matches_fold_fs, List.flatMap_cons,
      List.foldl_append]

theorem foldl_processProgram_fs (resolve : String → List FPath)
    (perm readPerm : FPath → Bool) (programs : List Program) :
    ∀ acc : FS × List LogLine × Nat,
      (programs.foldl (processProgram false resolve perm readPerm) acc).1 =
      (allMatches resolve programs).foldl (stepFS perm readPerm) acc.1 := by
  induction programs with
  | nil => intro acc; simp [allMatches]
  | cons p rest ih =>
    intro acc
    rw [List.foldl_cons, ih, allMatches_cons, List.foldl_append]
    cases hp : p.Checked with
    | false =>
      rw [show processProgram false resolve perm readPerm acc p = acc from by
        unfold processProgram; rw [if_pos hp]]
      simp
    | true =>
      have h1 : (processProgram false resolve perm readPerm acc p).1 =
          (processPaths false resolve perm readPerm p.Paths
            (acc.1, acc.2.1)).1 := by
        unfold processProgram
        rw [if_neg (by simp [hp])]
      rw [h1, processPaths_fs]
      simp

/-- The filesystem after a real run is the left fold of the single-match
step over the resolved matches, in processing order. -/
theorem runCleanup_fs_foldl (resolve : String → List FPath)
    (perm readPerm : FPath → Bool) (programs : List Program) (fs : FS)
    (b a : Int) :
    (runCleanup false resolve perm readPerm programs fs b a).fs =
      (allMatches resolve programs).foldl (stepFS perm readPerm) fs := by
  simp only [runCleanup]
  rw [foldl_processProgram_fs]

/-- An entry is shielded from deletion: some entry at or below it cannot
be removed, so `os.RemoveAll` keeps it together with every ancestor. -/
def untouchable (perm : FPath → Bool) (fs : FS) (x : FSEntry) : Prop :=
  ∃ s ∈ fs, x.path.isPrefixOf s.path = true ∧ perm s.path = false

/-- A match on which the single-match step has nothing left to do: it is
unsafe, or absent, or an undeletable file, or an unreadable directory, or
a directory all of whose listed children lead only to shielded entries. -/
def processedAt (perm readPerm : FPath → Bool) (fs : FS) (m : FPath) : Prop :=
  isSafePathUnix (pathToString m) = false ∨
  lookupFS fs m = none ∨
  (∃ e, lookupFS fs m = some e ∧ (∃ sz, e.kind = NodeKind.file sz) ∧
    perm m = false) ∨
  (∃ e, lookupFS fs m = some e ∧ e.kind = NodeKind.dir ∧
    readPerm m = false) ∨
  (∃ e, lookupFS fs m = some e ∧ e.kind = NodeKind.dir ∧
    readPerm m = true ∧
    ∀ name ∈ readDirFS fs m, ∀ x ∈ fs,
      (m ++ [name]).isPrefixOf x.path = true → untouchable perm fs x)

theorem removeAllFS_eq_self (perm : FPath → Bool) (g : FS) (c : FPath)
    (h : ∀ x ∈ g, c.isPrefixOf x.path = true → untouchable perm g x) :
    removeAllFS perm g c = g := by
  unfold removeAllFS
  rw [List.filter_eq_self]
  intro x hx
  unfold raSurvives
  rw [Bool.or_eq_true]
  by_cases hc : c.isPrefixOf x.path = true
  · obtain ⟨s, hs, hps, hperm⟩ := h x hx hc
    right
    rw [List.any_eq_true]
    exact ⟨s, hs, by rw [hps, hperm]; rfl⟩
  · left
    have hc2 : c.isPrefixOf x.path = false := by
      cases hcc : c.isPrefixOf x.path
      · rfl
      · exact absurd hcc hc
    rw [hc2]
    rfl

theorem removeChildren_fs_eq_self (perm : FPath → Bool) (m : FPath) :
    ∀ (names : List String) (g : FS),
      (∀ name ∈ names, ∀ x ∈ g,
        (m ++ [name]).isPrefixOf x.path = true → untouchable perm g x) →
      (removeChildren perm m names g).1 = g := by
  intro names
  induction names with
  | nil => intro g _; rfl
  | cons n rest ih =>
    intro g h
    show (removeChildren perm m rest (removeAllFS perm g (m ++ [n]))).1 = g
    rw [removeAllFS_eq_self perm g (m ++ [n]) (h n (List.mem_cons_self n rest))]
    exact ih g (fun name hn => h name (List.mem_cons_of_mem n hn))

/-- A processed match leaves the filesystem untouched. -/
theorem stepFS_eq_self_of_processed (perm readPerm : FPath → Bool) (g : FS)
    (m : FPath) (h : processedAt perm readPerm g m) :
    stepFS perm readPerm g m = g := by
  unfold stepFS processMatch
  simp only [Bool.false_eq_true, if_false]
  by_cases hs : isSafePathUnix (pathToString m) = false
  · rw [if_pos hs]
  · rw [if_neg hs]
    rcases h with h | h | ⟨e, hl, ⟨sz, hk⟩, hp⟩ | ⟨e, hl, hk, hr⟩ |
      ⟨e, hl, hk, hr, hsub⟩
    · exact absurd h hs
    · simp [h]
    · simp [hl, hk, hp]
    · simp [hl, hk, hr]
    · have h2 := removeChildren_fs_eq_self perm m (readDirFS g m) g hsub
      simp [hl, hk, hr, h2]

theorem untouchable_removeAllFS {perm : FPath → Bool} {g : FS} {x : FSEntry}
    (h : untouchable perm g x) (c : FPath) :
    untouchable perm (removeAllFS perm g c) x := by
  obtain ⟨s, hs, hps, hperm⟩ := h
  exact ⟨s, mem_removeAllFS_of_noperm hs hperm c, hps, hperm⟩

theorem untouchable_removeChildren {perm : FPath → Bool} (m : FPath) :
    ∀ (names : List String) (g : FS) (x : FSEntry),
      untouchable perm g x →
      untouchable perm (removeChildren perm m names g).1 x := by
  intro names
  induction names with
  | nil => intro g x h; exact h
  | cons n rest ih =>
    intro g x h
    show untouchable perm
      (removeChildren perm m rest (removeAllFS perm g (m ++ [n]))).1 x
    exact ih _ x (untouchable_removeAllFS h (m ++ [n]))

/-- A survivor that lies below the removal target is shielded: it owes its
survival to an undeletable entry below it, and that witness survives too. -/
theorem untouchable_of_mem_removeAllFS {perm : FPath → Bool} {g : FS}
    {c : FPath} {x : FSEntry} (hx : x ∈ removeAllFS perm g c)
    (hc : c.isPrefixOf x.path = true) :
    untouchable perm (removeAllFS perm g c) x := by
  rcases List.mem_filter.mp hx with ⟨hxg, hsurv⟩
  unfold raSurvives at hsurv
  rw [Bool.or_eq_true] at hsurv
  rcases hsurv with hleft | hany
  · rw [hc] at hleft
    exact absurd hleft (by decide)
  · rw [List.any_eq_true] at hany
    obtain ⟨s, hsg, hcond⟩ := hany
    rw [Bool.and_eq_true] at hcond
    obtain ⟨hps, hperm⟩ := hcond
    have hperm2 : perm s.path = false := by
      cases hp2 : perm s.path
      · rfl
      · rw [hp2] at hperm
        exact absurd hperm (by decide)
    exact ⟨s, mem_removeAllFS_of_noperm hsg hperm2 c, hps, hperm2⟩

/-- After emptying a directory, every survivor below a listed child is
shielded. -/
theorem removeChildren_untouchable (perm : FPath → Bool) (m : FPath) :
    ∀ (names : List String) (g : FS) (name : String), name ∈ names →
      ∀ x ∈ (removeChildren perm m names g).1,
        (m ++ [name]).isPrefixOf x.path = true →
        untouchable perm (removeChildren perm m names g).1 x := by
  intro names
  induction names with
  | nil => intro g name hname; exact absurd hname (by simp)
  | cons n rest ih =>
    intro g name hname x hx hpre
    have hshow : (removeChildren perm m (n :: rest) g).1 =
        (removeChildren perm m rest (removeAllFS perm g (m ++ [n]))).1 := rfl
    rw [hshow] at hx ⊢
    rcases List.mem_cons.mp hname with heq | hmem
    · subst heq
      have hx2 : x ∈ removeAllFS perm g (m ++ [name]) :=
        (removeChildren_fs_sublist perm m rest _).subset hx
      exact untouchable_removeChildren m rest _ x
        (untouchable_of_mem_removeAllFS hx2 hpre)
    · exact ih _ name hmem x hx hpre

theorem readDirFS_sublist {h g : FS} (hs : List.Sublist h g) (m : FPath) :
    List.Sublist (readDirFS h m) (readDirFS g m) := by
  unfold readDirFS
  exact hs.filterMap _

/-- After its own step, a match is processed. -/
theorem processedAt_stepFS_self (perm readPerm : FPath → Bool) (g : FS)
    (m : FPath) :
    processedAt perm readPerm (stepFS perm readPerm g m) m := by
  by_cases hs : isSafePathUnix (pathToString m) = false
  · exact Or.inl hs
  · cases hl : lookupFS g m with
    | none =>
      have hstep : stepFS perm readPerm g m = g := by
        simp [stepFS, processMatch, hs, hl]
      rw [hstep]
      exact Or.inr (Or.inl hl)
    | some e =>
      cases hk : e.kind with
      | file sz =>
        by_cases hp : perm m = true
        · have hstep : stepFS perm readPerm g m = removeFileFS g m := by
            simp [stepFS, processMatch, hs, hl, hk, hp]
          rw [hstep]
          exact Or.inr (Or.inl (lookupFS_removeFileFS_self g m))
        · have hstep : stepFS perm readPerm g m = g := by
            simp [stepFS, processMatch, hs, hl, hk, hp]
          rw [hstep]
          have hp2 : perm m = false := by
            cases hpp : perm m
            · rfl
            · exact absurd hpp hp
          exact Or.inr (Or.inr (Or.inl ⟨e, hl, ⟨sz, hk⟩, hp2⟩))
      | dir =>
        by_cases hr : readPerm m = false
        · have hstep : stepFS perm readPerm g m = g := by
            simp [stepFS, processMatch, hs, hl, hk, hr]
          rw [hstep]
          exact Or.inr (Or.inr (Or.inr (Or.inl ⟨e, hl, hk, hr⟩)))
        · have hr2 : readPerm m = true := by
            cases hrr : readPerm m
            · exact absurd hrr hr
            · rfl
          have hstep : stepFS perm readPerm g m =
              (removeChildren perm m (readDirFS g m) g).1 := by
            simp [stepFS, processMatch, hs, hl, hk, hr2]
          refine Or.inr (Or.inr (Or.inr (Or.inr ⟨e, ?_, hk, hr2, ?_⟩)))
          · rw [hstep,
              lookupFS_removeChildren perm m (readDirFS g m) g m ?hself]
            · exact hl
            case hself =>
              intro name _
              cases hq : (m ++ [name]).isPrefixOf m
              · rfl
              · have := (List.isPrefixOf_iff_prefix.mp hq).length_le
                simp at this
          · rw [hstep]
            intro name hname x hx hpre
            have hname2 : name ∈ readDirFS g m :=
              (readDirFS_sublist
                (removeChildren_fs_sublist perm m _ g) m).subset hname
            exact removeChildren_untouchable perm m (readDirFS g m) g name
              hname2 x hx hpre

theorem lookupFS_none_sublist {h g : FS} (hs : List.Sublist h g) (m : FPath)
    (hnone : lookupFS g m = none) : lookupFS h m = none := by
  unfold lookupFS at *
  rw [List.find?_eq_none] at *
  intro x hx
  exact hnone x (hs.subset hx)

/-- With duplicate-free paths, a lookup in any sub-filesystem returns
either nothing or the very same entry. -/
theorem lookupFS_sublist_nodup {h g : FS} (hs : List.Sublist h g)
    (hnd : (g.map (fun e => e.path)).Nodup) (m : FPath) (e : FSEntry)
    (hl : lookupFS g m = some e) :
    lookupFS h m = none ∨ lookupFS h m = some e := by
  cases hl2 : lookupFS h m with
  | none => exact Or.inl rfl
  | some e2 =>
    right
    have he2mem : e2 ∈ h := List.mem_of_find?_eq_some hl2
    have he2path : e2.path = m := by
      have := List.find?_some hl2
      simpa using this
    have hemem : e ∈ g := List.mem_of_find?_eq_some hl
    have hepath : e.path = m := by
      have := List.find?_some hl
      simpa using this
    have heq : e2 = e :=
      List.inj_on_of_nodup_map hnd (hs.subset he2mem) hemem
        (by rw [he2path, hepath])
    rw [heq]

theorem mem_removeChildren_of_noperm {perm : FPath → Bool} (m : FPath) :
    ∀ (names : List String) (g : FS) (s : FSEntry), s ∈ g →
      perm s.path = false → s ∈ (removeChildren perm m names g).1 := by
  intro names
  induction names with
  | nil => intro g s hs _; exact hs
  | cons n rest ih =>
    intro g s hs hperm
    show s ∈ (removeChildren perm m rest (removeAllFS perm g (m ++ [n]))).1
    exact ih _ s (mem_removeAllFS_of_noperm hs hperm (m ++ [n])) hperm

/-- An undeletable entry survives every match step. -/
theorem mem_stepFS_of_noperm {perm readPerm : FPath → Bool} {g : FS}
    {k : FPath} {s : FSEntry} (hs : s ∈ g) (hperm : perm s.path = false) :
    s ∈ stepFS perm readPerm g k := by
  unfold stepFS processMatch
  simp only [Bool.false_eq_true, if_false]
  by_cases hsafe : isSafePathUnix (pathToString k) = false
  · rw [if_pos hsafe]
    exact hs
  · rw [if_neg hsafe]
    cases hl : lookupFS g k with
    | none => exact hs
    | some ek =>
      cases hkk : ek.kind with
      | file sz =>
        by_cases hp : perm k = true
        · simp only [hkk, if_pos hp]
          unfold removeFileFS
          rw [List.mem_filter]
          refine ⟨hs, ?_⟩
          have hne : ¬s.path = k := by
            intro hc
            rw [hc] at hperm
            rw [hperm] at hp
            exact absurd hp (by decide)
          simp [hne]
        · simp only [hkk, if_neg hp]
          exact hs
      | dir =>
        by_cases hr : readPerm k = false
        · simp only [hkk, if_pos hr]
          exact hs
        · simp only [hkk, if_neg hr]
          exact mem_removeChildren_of_noperm k (readDirFS g k) g s hs hperm

theorem untouchable_stepFS {perm readPerm : FPath → Bool} {g : FS}
    {x : FSEntry} (h : untouchable perm g x) (k : FPath) :
    untouchable perm (stepFS perm readPerm g k) x := by
  obtain ⟨s, hs, hps, hperm⟩ := h
  exact ⟨s, mem_stepFS_of_noperm hs hperm, hps, hperm⟩

/-- Being processed is stable under any further match step. -/
theorem processedAt_stepFS (perm readPerm : FPath → Bool) (g : FS)
    (k m : FPath) (hnd : (g.map (fun e => e.path)).Nodup)
    (h : processedAt perm readPerm g m) :
    processedAt perm readPerm (stepFS perm readPerm g k) m := by
  have hsub := stepFS_sublist perm readPerm g k
  rcases h with h | h | ⟨e, hl, hkf, hp⟩ | ⟨e, hl, hk, hr⟩ |
    ⟨e, hl, hk, hr, hall⟩
  · exact Or.inl h
  · exact Or.inr (Or.inl (lookupFS_none_sublist hsub m h))
  · rcases lookupFS_sublist_nodup hsub hnd m e hl with h2 | h2
    · exact Or.inr (Or.inl h2)
    · exact Or.inr (Or.inr (Or.inl ⟨e, h2, hkf, hp⟩))
  · rcases lookupFS_sublist_nodup hsub hnd m e hl with h2 | h2
    · exact Or.inr (Or.inl h2)
    · exact Or.inr (Or.inr (Or.inr (Or.inl ⟨e, h2, hk, hr⟩)))
  · rcases lookupFS_sublist_nodup hsub hnd m e hl with h2 | h2
    · exact Or.inr (Or.inl h2)
    · refine Or.inr (Or.inr (Or.inr (Or.inr ⟨e, h2, hk, hr, ?_⟩)))
      intro name hname x hx hpre
      exact untouchable_stepFS
        (hall name ((readDirFS_sublist hsub m).subset hname) x
          (hsub.subset hx) hpre) k

theorem nodup_paths_sublist {h g : FS} (hs : List.Sublist h g)
    (hnd : (g.map (fun e => e.path)).Nodup) :
    (h.map (fun e => e.path)).Nodup :=
  List.Nodup.sublist (hs.map _) hnd

theorem processedAt_foldl (perm readPerm : FPath → Bool) (m : FPath) :
    ∀ (ms : List FPath) (g : FS), (g.map (fun e => e.path)).Nodup →
      processedAt perm readPerm g m →
      processedAt perm readPerm (ms.foldl (stepFS perm readPerm) g) m := by
  intro ms
  induction ms with
  | nil => intro g _ h; exact h
  | cons k rest ih =>
    intro g hnd h
    rw [List.foldl_cons]
    exact ih _ (nodup_paths_sublist (stepFS_sublist perm readPerm g k) hnd)
      (processedAt_stepFS perm readPerm g k m hnd h)

/-- After a full fold over the matches, every match is processed. -/
theorem processed_after_fold (perm readPerm : FPath → Bool) :
    ∀ (ms : List FPath) (g : FS), (g.map (fun e => e.path)).Nodup →
      ∀ m ∈ ms,
        processedAt perm readPerm (ms.foldl (stepFS perm readPerm) g) m := by
  intro ms
  induction ms with
  | nil => intro g _ m hm; exact absurd hm (by simp)
  | cons k rest ih =>
    intro g hnd m hm
    rw [List.foldl_cons]
    have hnd2 := nodup_paths_sublist (stepFS_sublist perm readPerm g k) hnd
    rcases List.mem_cons.mp hm with heq | hmem
    · subst heq
      exact processedAt_foldl perm readPerm m rest _ hnd2
        (processedAt_stepFS_self perm readPerm g m)
    · exact ih _ hnd2 m hmem

theorem foldl_stepFS_noop (perm readPerm : FPath → Bool) :
    ∀ (ms : List FPath) (g : FS),
      (∀ m ∈ ms, processedAt perm readPerm g m) →
      ms.foldl (stepFS perm readPerm) g = g := by
  intro ms
  induction ms with
  | nil => intro g _; rfl
  | cons k rest ih =>
    intro g h
    rw [List.foldl_cons, stepFS_eq_self_of_processed perm readPerm g k
      (h k (List.mem_cons_self k rest))]
    exact ih g (fun m hm => h m (List.mem_cons_of_mem k hm))

/-- A dry run never changes the filesystem state. -/
theorem runCleanup_dry_fs (resolve : String → List FPath)
    (perm readPerm : FPath → Bool) (programs : List Program) (fs : FS)
    (b a : Int) :
    (runCleanup true resolve perm readPerm programs fs b a).fs = fs := by
  simp only [runCleanup]
  exact (foldl_processProgram_dry resolve perm readPerm programs (fs, [], 0)).1

/-- The `count` a run reports depends only on the selection, never on the
filesystem. -/
theorem runCleanup_count (dry : Bool) (resolve : String → List FPath)
    (perm readPerm : FPath → Bool) (programs : List Program) (fs : FS)
    (b a : Int) :
    (runCleanup dry resolve perm readPerm programs fs b a).count =
      (programs.filter (fun p => p.Checked)).length := by
  simp only [runCleanup]
  rw [foldl_processProgram_count]
  simp

/-- C7 counterexample: a resolved, safe path of a checked program can be
skipped with no log line identifying it.  Here the first match `a/b/c` is a
directory whose cleanup removes its child `a/b/c/d`; when the second match
`a/b/c/d` is processed, `os.Stat` fails and the loop `continue`s silently:
the run's only log line is the final `Cleaned X`. -/
theorem C7_counterexample :
    (let resolve : String → List FPath :=
       fun _s => [["a", "b", "c"], ["a", "b", "c", "d"]]
     let fs0 : FS := [FSEntry.mk ["a", "b", "c"] NodeKind.dir,
                      FSEntry.mk ["a", "b", "c", "d"] NodeKind.dir]
     let rep := runCleanup false resolve (fun _q => true) (fun _q => true)
       [Program.mk "X" ["p"] true] fs0 0 0
     isSafePathUnix (pathToString ["a", "b", "c", "d"]) = true ∧
     rep.logs = [LogLine.cleanedOK "X"]) := by
  decide

/-- C7 (amended): (a) a dry run logs exactly one would-delete notice per
resolved match of a checked program and nothing else — in particular no
deletion-failure lines; (b) in a real run, each Protected match occurrence
produces exactly one `Skipped unsafe path` line and safe paths produce
none; (c) per match step of a real run on a safe path: a match whose stat
fails is skipped silently (no log line — the amendment); a file that
cannot be removed produces exactly the one `Could not delete` line and a
removable file none; an unreadable directory produces exactly the one
`Could not read dir` line; for a readable directory each child whose
recursive removal fails produces exactly one `Skipped <name>` line. -/
theorem C7_amended (resolve : String → List FPath)
    (perm readPerm : FPath → Bool) (programs : List Program) (fs : FS)
    (b a : Int) :
    ((runCleanup true resolve perm readPerm programs fs b a).logs =
      (allMatches resolve programs).map LogLine.wouldDelete) ∧
    (∀ q : FPath,
      ((runCleanup false resolve perm readPerm programs fs b a).logs).count
          (LogLine.skippedUnsafe q) =
        if isSafePathUnix (pathToString q) = false
        then ((allMatches resolve programs).filter (fun m => m = q)).length
        else 0) ∧
    (∀ (g : FS) (m : FPath), isSafePathUnix (pathToString m) = true →
      (lookupFS g m = none →
        (processMatch false perm readPerm g m).2 = []) ∧
      (∀ (sz : Nat) (e : FSEntry), lookupFS g m = some e →
        e.kind = NodeKind.file sz →
        (processMatch false perm readPerm g m).2 =
          if perm m = true then [] else [LogLine.couldNotDeleteFile m]) ∧
      (∀ e : FSEntry, lookupFS g m = some e → e.kind = NodeKind.dir →
        (readPerm m = false →
          (processMatch false perm readPerm g m).2 =
            [LogLine.couldNotReadDir m]) ∧
        (readPerm m = true → (readDirFS g m).Nodup →
          ∀ name ∈ readDirFS g m,
            ((processMatch false perm readPerm g m).2).count
                (LogLine.skippedChild m name) =
              if raFails perm g (m ++ [name]) then 1 else 0))) := by
  refine ⟨?_, ?_, ?_⟩
  · have h := (foldl_processProgram_dry resolve perm readPerm programs
      (fs, [], 0)).2
    simp only [runCleanup]
    rw [h]
    simp
  · intro q
    simp only [runCleanup]
    rw [foldl_processProgram_skippedUnsafe_count, countP_skippedUnsafe_branch]
    simp
  · intro g m hsafe
    refine ⟨?_, ?_, ?_⟩
    · intro hl
      simp [processMatch, hsafe, hl]
    · intro sz e hl hk
      cases hp : perm m <;> simp [processMatch, hsafe, hl, hk, hp]
    · intro e hl hk
      constructor
      · intro hr
        simp [processMatch, hsafe, hl, hk, hr]
      · intro hr hnd name hname
        have hred : (processMatch false perm readPerm g m).2 =
            (removeChildren perm m (readDirFS g m) g).2 := by
          simp [processMatch, hsafe, hl, hk, hr]
        rw [hred]
        exact removeChildren_count perm m (readDirFS g m) g hnd name hname

/-- C7 witness: the `Skipped unsafe path` count formula of `C7_amended`,
instantiated at the Protected path `/etc` in a one-program run. -/
theorem C7_witness :
    ((runCleanup false (fun _s => [["etc"]]) (fun _q => true)
        (fun _q => true) [Program.mk "X" ["p"] true] [] 0 0).logs).count
        (LogLine.skippedUnsafe ["etc"]) =
      if isSafePathUnix (pathToString ["etc"]) = false
      then ((allMatches (fun _s => [["etc"]])
        [Program.mk "X" ["p"] true]).filter (fun m => m = ["etc"])).length
      else 0 :=
  (C7_amended (fun _s => [["etc"]]) (fun _q => true) (fun _q => true)
    [Program.mk "X" ["p"] true] [] 0 0).2.1 ["etc"]

/-- C5 counterexample: the directory inode of a safe resolved match does
not always survive the run.  `a/b/c/d` is a safe directory match and its
own step leaves it in place, but the later match `a/b/c` — an ancestor —
removes it via `os.RemoveAll` on its children, so after the run the inode
is gone. -/
theorem C5_counterexample :
    (let resolve : String → List FPath :=
       fun _s => [["a", "b", "c", "d"], ["a", "b", "c"]]
     let fs0 : FS := [FSEntry.mk ["a", "b", "c"] NodeKind.dir,
                      FSEntry.mk ["a", "b", "c", "d"] NodeKind.dir]
     let rep := runCleanup false resolve (fun _q => true) (fun _q => true)
       [Program.mk "X" ["p"] true] fs0 0 0
     isSafePathUnix (pathToString ["a", "b", "c", "d"]) = true ∧
     lookupFS fs0 ["a", "b", "c", "d"] =
       some (FSEntry.mk ["a", "b", "c", "d"] NodeKind.dir) ∧
     lookupFS rep.fs ["a", "b", "c", "d"] = none) := by
  decide

/-- C5 (amended): per match step of a real run — a safe regular-file match
with delete permission is removed directly (its entry disappears and no
other path is touched); a safe, readable directory match removes only
paths strictly below it: every lookup outside the directory is unchanged,
the step never adds entries, and the directory inode itself survives its
own step.  At run level the matched directory's inode still exists after
the whole run provided no other resolved match is a proper ancestor of it
(the counterexample shows this proviso is necessary). -/
theorem C5_amended (resolve : String → List FPath)
    (perm readPerm : FPath → Bool) :
    (∀ (g : FS) (m : FPath) (e : FSEntry) (sz : Nat),
      isSafePathUnix (pathToString m) = true → lookupFS g m = some e →
      e.kind = NodeKind.file sz → perm m = true →
      lookupFS (stepFS perm readPerm g m) m = none ∧
      ∀ q : FPath, ¬q = m →
        lookupFS (stepFS perm readPerm g m) q = lookupFS g q) ∧
    (∀ (g : FS) (m : FPath) (e : FSEntry),
      isSafePathUnix (pathToString m) = true → lookupFS g m = some e →
      e.kind = NodeKind.dir → readPerm m = true →
      lookupFS (stepFS perm readPerm g m) m = some e ∧
      (∀ q : FPath, m.isPrefixOf q = false →
        lookupFS (stepFS perm readPerm g m) q = lookupFS g q) ∧
      List.Sublist (stepFS perm readPerm g m) g) ∧
    (∀ (programs : List Program) (fs : FS) (b a : Int) (m : FPath)
       (e : FSEntry),
      m ∈ allMatches resolve programs →
      (∀ k ∈ allMatches resolve programs, k.isPrefixOf m = true → k = m) →
      lookupFS fs m = some e → e.kind = NodeKind.dir →
      lookupFS (runCleanup false resolve perm readPerm programs fs b a).fs m
        = some e) := by
  refine ⟨?_, ?_, ?_⟩
  · intro g m e sz hsafe hl hk hp
    have hstep : stepFS perm readPerm g m = removeFileFS g m := by
      simp [stepFS, processMatch, hsafe, hl, hk, hp]
    rw [hstep]
    exact ⟨lookupFS_removeFileFS_self g m,
      fun q hq => lookupFS_removeFileFS g m q hq⟩
  · intro g m e hsafe hl hk hr
    have hstep : stepFS perm readPerm g m =
        (removeChildren perm m (readDirFS g m) g).1 := by
      simp [stepFS, processMatch, hsafe, hl, hk, hr]
    refine ⟨?_, ?_, stepFS_sublist perm readPerm g m⟩
    · rw [hstep, lookupFS_removeChildren perm m (readDirFS g m) g m ?hself]
      · exact hl
      case hself =>
        intro name _
        cases hq : (m ++ [name]).isPrefixOf m
        · rfl
        · have := (List.isPrefixOf_iff_prefix.mp hq).length_le
          simp at this
    · intro q hq
      rw [hstep, lookupFS_removeChildren perm m (readDirFS g m) g q ?hout]
      case hout =>
        intro name _
        cases hb : (m ++ [name]).isPrefixOf q
        · rfl
        · have h1 : m.IsPrefix q :=
            (List.prefix_append m [name]).trans
              (List.isPrefixOf_iff_prefix.mp hb)
          rw [List.isPrefixOf_iff_prefix.mpr h1] at hq
          exact absurd hq (by intro hcon; injection hcon)
  · intro programs fs b a m e _ hanc hfs hkind
    rw [runCleanup_fs_foldl]
    have haux : ∀ (ms : List FPath) (g : FS),
        (∀ k ∈ ms, k.isPrefixOf m = true → k = m) →
        lookupFS g m = some e →
        lookupFS (ms.foldl (stepFS perm readPerm) g) m = some e := by
      intro ms
      induction ms with
      | nil => intro g _ hg; exact hg
      | cons k rest ih =>
        intro g hks hg
        rw [List.foldl_cons]
        exact ih _ (fun k2 hk2 => hks k2 (List.mem_cons_of_mem _ hk2))
          (lookupFS_stepFS_preserved perm readPerm g k m e hg hkind
            (hks k (List.mem_cons_self k rest)))
    exact haux _ fs hanc hfs

/-- C5 witness: in a run whose only match is the directory `a/b/c`, the
directory's inode survives the whole cleanup (while, as the model shows,
its file child is removed). -/
theorem C5_witness :
    lookupFS (runCleanup false (fun _s => [["a", "b", "c"]]) (fun _q => true)
      (fun _q => true) [Program.mk "X" ["p"] true]
      [FSEntry.mk ["a", "b", "c"] NodeKind.dir,
       FSEntry.mk ["a", "b", "c", "d"] (NodeKind.file 7)] 0 0).fs
      ["a", "b", "c"] = some (FSEntry.mk ["a", "b", "c"] NodeKind.dir) :=
  (C5_amended (fun _s => [["a", "b", "c"]]) (fun _q => true)
    (fun _q => true)).2.2 [Program.mk "X" ["p"] true]
    [FSEntry.mk ["a", "b", "c"] NodeKind.dir,
     FSEntry.mk ["a", "b", "c", "d"] (NodeKind.file 7)] 0 0 ["a", "b", "c"]
    (FSEntry.mk ["a", "b", "c"] NodeKind.dir) (by decide) (by decide)
    (by decide) (by decide)

/-- C9: cleanup is idempotent.  With duplicate-free paths (as on a real
filesystem), running the executor twice over the same selection, with
nothing created in between, leaves the filesystem exactly as after the
first run — the second run deletes nothing further — and the second run
completes its full pass, reporting the same number of cleaned entries. -/
theorem C9_idempotent (dry : Bool) (resolve : String → List FPath)
    (perm readPerm : FPath → Bool) (programs : List Program) (fs : FS)
    (b1 a1 b2 a2 : Int)
    (hnd : (fs.map (fun e => e.path)).Nodup) :
    (runCleanup dry resolve perm readPerm programs
        (runCleanup dry resolve perm readPerm programs fs b1 a1).fs
        b2 a2).fs =
      (runCleanup dry resolve perm readPerm programs fs b1 a1).fs ∧
    (runCleanup dry resolve perm readPerm programs
        (runCleanup dry resolve perm readPerm programs fs b1 a1).fs
        b2 a2).count =
      (runCleanup dry resolve perm readPerm programs fs b1 a1).count := by
  constructor
  · cases dry with
    | true => rw [runCleanup_dry_fs]
    | false =>
      rw [runCleanup_fs_foldl, runCleanup_fs_foldl]
      exact foldl_stepFS_noop perm readPerm (allMatches resolve programs)
        ((allMatches resolve programs).foldl (stepFS perm readPerm) fs)
        (processed_after_fold perm readPerm (allMatches resolve programs)
          fs hnd)
  · rw [runCleanup_count, runCleanup_count]

/-- C9 witness: a concrete double run — a directory match whose file child
is removed by the first run — evaluated on duplicate-free paths. -/
theorem C9_witness :
    (([FSEntry.mk ["a", "b", "c"] NodeKind.dir,
       FSEntry.mk ["a", "b", "c", "d"] (NodeKind.file 7)].map
        (fun e => e.path)).Nodup) ∧
    (runCleanup false (fun _s => [["a", "b", "c"]]) (fun _q => true)
        (fun _q => true) [Program.mk "X" ["p"] true]
        (runCleanup false (fun _s => [["a", "b", "c"]]) (fun _q => true)
          (fun _q => true) [Program.mk "X" ["p"] true]
          [FSEntry.mk ["a", "b", "c"] NodeKind.dir,
           FSEntry.mk ["a", "b", "c", "d"] (NodeKind.file 7)] 0 0).fs
        0 0).fs =
      (runCleanup false (fun _s => [["a", "b", "c"]]) (fun _q => true)
        (fun _q => true) [Program.mk "X" ["p"] true]
        [FSEntry.mk ["a", "b", "c"] NodeKind.dir,
         FSEntry.mk ["a", "b", "c", "d"] (NodeKind.file 7)] 0 0).fs :=
  ⟨by decide,
   (C9_idempotent false (fun _s => [["a", "b", "c"]]) (fun _q => true)
     (fun _q => true) [Program.mk "X" ["p"] true]
     [FSEntry.mk ["a", "b", "c"] NodeKind.dir,
      FSEntry.mk ["a", "b", "c", "d"] (NodeKind.file 7)] 0 0 0 0
     (by decide)).1⟩

end CrunchyCleaner
